import Mathlib

/-!
Verification development for the pi-code-index repository: a shallow
embedding of the symbol data model, the index builder with its derived
lookup structures, the four-tier search cascade, the outline and map
renderers, the cache load/store policy, the build orchestrator, and the
JS-family (TypeScript) symbol extractor, together with theorems settling
the frozen claims about them.

JavaScript strings are embedded as Lean strings; the character-sequence
operations slice, startsWith, includes and join are modelled on the
underlying character lists.  JavaScript Map and Set (which preserve
insertion order) are embedded as association lists with append-at-end
insertion.  The default Array.sort comparison is embedded as a
lexicographic comparison of character sequences.
-/

namespace PiCodeIndex

/-- Embedding of the JavaScript startsWith test on strings. -/
def jsStartsWith (s p : String) : Bool := p.toList.isPrefixOf s.toList

/-- Embedding of the JavaScript endsWith test on strings. -/
def jsEndsWith (s p : String) : Bool := p.toList.isSuffixOf s.toList

/-- Containment of one character sequence in another, scanning every
suffix for a prefix match. -/
def listInfix (sub : List Char) : List Char → Bool
  | [] => sub.isEmpty
  | c :: rest => sub.isPrefixOf (c :: rest) || listInfix sub rest

/-- Embedding of the JavaScript includes (substring containment) test. -/
def jsIncludes (s sub : String) : Bool := listInfix sub.toList s.toList

/-- Embedding of the JavaScript slice(0, n) operation: the first n characters. -/
def jsSlice (s : String) (n : Nat) : String := String.mk (s.toList.take n)

/-- Embedding of the JavaScript slice(n) operation: drop the first n characters. -/
def jsDropLeft (s : String) (n : Nat) : String := String.mk (s.toList.drop n)

/-- Embedding of the JavaScript toLowerCase operation, applied character by
character (identical to the source behaviour on ASCII identifiers). -/
def jsToLower (s : String) : String := String.mk (s.toList.map Char.toLower)

/-- Lexicographic strict comparison of character sequences, by numeric
character value, as used by the default JavaScript Array.sort comparator. -/
def strLtChars : List Char → List Char → Bool
  | [], [] => false
  | [], _ :: _ => true
  | _ :: _, [] => false
  | a :: as, b :: bs =>
    if a.toNat < b.toNat then true
    else if b.toNat < a.toNat then false
    else strLtChars as bs

/-- Non-strict string comparison derived from strLtChars. -/
def jsLe (a b : String) : Bool := ! strLtChars b.toList a.toList

/-- Insert a string into a list sorted by jsLe, keeping it sorted. -/
def insertSorted (x : String) : List String → List String
  | [] => [x]
  | y :: ys => if jsLe x y then x :: y :: ys else y :: insertSorted x ys

/-- Insertion sort by jsLe; embedding of the default JavaScript Array.sort
on the (distinct) name lists appearing in the source. -/
def sortNames (l : List String) : List String := l.foldr insertSorted []

/-- Append a string to an accumulator unless already present; one step of
the insertion-ordered set used to collect distinct names. -/
def addIfAbsent (acc : List String) (x : String) : List String :=
  if x ∈ acc then acc else acc ++ [x]

/-- Distinct elements of a list in first-occurrence order; embedding of
iterating a JavaScript Set built by successive additions. -/
def dedupFirst (l : List String) : List String := l.foldl addIfAbsent []

/-- Embedding of the JavaScript Array.join with separator "/". -/
def joinSep : List String → String
  | [] => ""
  | [x] => x
  | x :: y :: ys => x ++ "/" ++ joinSep (y :: ys)

/-- Splitting a character sequence at the path separator, accumulating the
current segment in reverse. -/
def splitSlashAux : List Char → List Char → List String
  | [], acc => [String.mk acc.reverse]
  | c :: rest, acc =>
    if c = '/' then String.mk acc.reverse :: splitSlashAux rest []
    else splitSlashAux rest (c :: acc)

/-- Embedding of the JavaScript split at the path separator; always yields
at least one segment, and exactly the segments between separators. -/
def jsSplit (s : String) : List String := splitSlashAux s.toList []

/-- The closed set of symbol kinds from types.ts. -/
inductive SymbolKind where
  | function
  | «class»
  | method
  | type
  | interface
  | «variable»
  | module
  | enum
deriving DecidableEq

/-- One extracted declaration occurrence, from the Symbol interface in types.ts. -/
structure Symbol where
  name : String
  kind : SymbolKind
  file : String
  line : Nat
  signature : Option String := none
  parent : Option String := none
  exported : Bool
deriving DecidableEq

/-- Search options from types.ts: optional kind, file-path-prefix scope,
exported flag and result limit. -/
structure SearchOptions where
  kind : Option SymbolKind := none
  scope : Option String := none
  exported : Option Bool := none
  limit : Option Nat := none
deriving DecidableEq

/-- Association-list embedding of a JavaScript Map from strings to arrays:
appending a value to the bucket of a key, creating the bucket at the end of
the map when the key is new (Map.set insertion order). -/
def mapInsert {α : Type} : List (String × List α) → String → α → List (String × List α)
  | [], k, v => [(k, [v])]
  | (k2, vs) :: rest, k, v =>
    if k2 = k then (k2, vs ++ [v]) :: rest else (k2, vs) :: mapInsert rest k v

/-- Bucket lookup in the association-list map; a missing key yields the
empty bucket, matching the undefined-guarded uses of Map.get in the source. -/
def mapGet {α : Type} (m : List (String × List α)) (k : String) : List α :=
  match m.find? (fun p => p.1 == k) with
  | some p => p.2
  | none => []

/-- The keys of an association-list map in insertion order. -/
def mapKeys {α : Type} (m : List (String × List α)) : List String := m.map (fun p => p.1)

/-- Build one of the keyed lookup maps of createCodeIndex by folding the
symbol stream, inserting every symbol under its key. -/
def buildMap (key : Symbol → String) (symbols : List Symbol) : List (String × List Symbol) :=
  symbols.foldl (fun m s => mapInsert m (key s) s) []

/-- The exact-name lookup structure of createCodeIndex. -/
def byName (symbols : List Symbol) : List (String × List Symbol) :=
  buildMap (fun s => s.name) symbols

/-- The case-folded-name lookup structure of createCodeIndex. -/
def byNameLower (symbols : List Symbol) : List (String × List Symbol) :=
  buildMap (fun s => jsToLower s.name) symbols

/-- The per-file lookup structure of createCodeIndex. -/
def byFile (symbols : List Symbol) : List (String × List Symbol) :=
  buildMap (fun s => s.file) symbols

/-- The sorted list of distinct symbol names of createCodeIndex. -/
def sortedNames (symbols : List Symbol) : List String :=
  sortNames (dedupFirst (symbols.map (fun s => s.name)))

/-- The distinct-file count of createCodeIndex: the size of the per-file map. -/
def fileCount (symbols : List Symbol) : Nat := (byFile symbols).length

/-- The queryable snapshot returned by createCodeIndex; the symbols field
embeds the closure state over which search, outline and map operate. -/
structure CodeIndex where
  symbols : List Symbol
  languages : List (String × Nat)
  symbolCount : Nat
  fileCount : Nat
deriving DecidableEq

/-- Embedding of createCodeIndex from code-index.ts. -/
def createCodeIndex (symbols : List Symbol) (languageFileCounts : List (String × Nat)) : CodeIndex :=
  { symbols := symbols
    languages := languageFileCounts
    symbolCount := symbols.length
    fileCount := fileCount symbols }

/-- Embedding of applyFilters from code-index.ts: kind, scope and exported
filters in order, then truncation to the limit (default 20). -/
def applyFilters (results : List Symbol) (options : SearchOptions) : List Symbol :=
  let f1 : List Symbol := match options.kind with
    | some k => results.filter (fun s => s.kind == k)
    | none => results
  let f2 : List Symbol := match options.scope with
    | some sc => f1.filter (fun s => jsStartsWith s.file sc)
    | none => f1
  let f3 : List Symbol := match options.exported with
    | some e => f2.filter (fun s => s.exported == e)
    | none => f2
  f3.take (options.limit.getD 20)

/-- Embedding of the scanning loops of search tiers 3 and 4: walk the
sorted name list, appending the exact-name bucket of every name passing
the predicate, and stop as soon as the collection exceeds the bound
(the bound is checked after every name, matching the loop in the source). -/
def collectBound (pred : String → Bool) (lookup : String → List Symbol) (bound : Nat) :
    List String → List Symbol → List Symbol
  | [], acc => acc
  | n :: rest, acc =>
    let acc2 := if pred n then acc ++ lookup n else acc
    if bound < acc2.length then acc2 else collectBound pred lookup bound rest acc2

/-- Tier 4 of search: case-insensitive substring match over the sorted
name list, filtered and truncated; returned unconditionally. -/
def substringTier (symbols : List Symbol) (lower : String) (opts : SearchOptions) (limit : Nat) : List Symbol :=
  applyFilters
    (collectBound (fun name => jsIncludes (jsToLower name) lower) (mapGet (byName symbols))
      (limit * 3) (sortedNames symbols) [])
    opts

/-- Tier 3 of search: case-insensitive prefix match over the sorted name
list; returns its post-filter results when non-empty, otherwise falls
through to the substring tier. -/
def prefixTier (symbols : List Symbol) (lower : String) (opts : SearchOptions) (limit : Nat) : List Symbol :=
  let prefixResults :=
    collectBound (fun name => jsStartsWith (jsToLower name) lower) (mapGet (byName symbols))
      (limit * 3) (sortedNames symbols) []
  if 0 < prefixResults.length then
    let filtered := applyFilters prefixResults opts
    if 0 < filtered.length then filtered else substringTier symbols lower opts limit
  else substringTier symbols lower opts limit

/-- Tier 2 of search: exact case-insensitive name match; returns its
post-filter results when non-empty, otherwise falls through to tier 3. -/
def ciTier (symbols : List Symbol) (lower : String) (opts : SearchOptions) (limit : Nat) : List Symbol :=
  let caseInsensitive := mapGet (byNameLower symbols) lower
  if 0 < caseInsensitive.length then
    let filtered := applyFilters caseInsensitive opts
    if 0 < filtered.length then filtered else prefixTier symbols lower opts limit
  else prefixTier symbols lower opts limit

/-- Embedding of search from code-index.ts: the four-tier short-circuiting
cascade, each tier returning only when its post-filter result is non-empty. -/
def search (symbols : List Symbol) (query : String) (options : SearchOptions) : List Symbol :=
  let limit := options.limit.getD 20
  let opts := { options with limit := some limit }
  let lower := jsToLower query
  let exact := mapGet (byName symbols) query
  if 0 < exact.length then
    let filtered := applyFilters exact opts
    if 0 < filtered.length then filtered else ciTier symbols lower opts limit
  else ciTier symbols lower opts limit

/-- Rendering of a symbol kind, the string stored in the kind field of the
source Symbol records. -/
def kindStr : SymbolKind → String
  | .function => "function"
  | .«class» => "class"
  | .method => "method"
  | .type => "type"
  | .interface => "interface"
  | .«variable» => "variable"
  | .module => "module"
  | .enum => "enum"

/-- The line rendered by formatFileOutline for a top-level symbol. -/
def topLine (s : Symbol) : String :=
  "  " ++ kindStr s.kind ++ " " ++ s.name ++ (s.signature.getD "") ++
    (if s.exported then "  exported" else "")

/-- The line rendered by formatFileOutline for a nested symbol listed under
its parent. -/
def childLine (s : Symbol) : String :=
  "    " ++ kindStr s.kind ++ " " ++ s.name ++ (s.signature.getD "")

/-- Embedding of formatFileOutline from code-index.ts as the list of lines
it renders: the file header, then every top-level symbol in stream order,
each followed by the nested symbols grouped under its name. -/
def formatFileOutlineLines (file : String) (syms : List Symbol) : List String :=
  let topLevel := syms.filter (fun s => s.parent.isNone)
  let nested := syms.filter (fun s => s.parent.isSome)
  let byParent := nested.foldl (fun m s => mapInsert m (s.parent.getD "") s) []
  file :: topLevel.flatMap (fun s => topLine s :: (mapGet byParent s.name).map childLine)

/-- Embedding of the directory branch of outline as the list of lines it
renders: files under the normalized path within the depth bound, sorted,
each annotated with its exported top-level names (first 8, then a +N more
suffix) or a bare symbol count. -/
def outlineDirLines (symbols : List Symbol) (path : String) (depth : Nat) : List String :=
  let normalizedPath := if jsEndsWith path "/" then path else path ++ "/"
  let dirFiles := (byFile symbols).filter (fun e =>
    jsStartsWith e.1 normalizedPath &&
      (jsSplit (jsDropLeft e.1 normalizedPath.length)).length ≤ depth)
  let sortedFiles := sortNames (dirFiles.map (fun e => e.1))
  let fileLines := sortedFiles.map (fun file =>
    let syms := mapGet (byFile symbols) file
    let topLevel := (syms.filter (fun s => s.parent.isNone && s.exported)).map (fun s => s.name)
    let relFile := jsDropLeft file normalizedPath.length
    if 0 < topLevel.length then
      let names := String.intercalate ", " (topLevel.take 8)
      let more := if 8 < topLevel.length then ", +" ++ toString (topLevel.length - 8) ++ " more" else ""
      "  " ++ relFile ++ "  — " ++ names ++ more
    else
      "  " ++ relFile ++ "  — " ++ toString syms.length ++ " symbol" ++
        (if syms.length ≠ 1 then "s" else ""))
  if sortedFiles.length = 0 then [normalizedPath, "  (no indexed files found)"]
  else normalizedPath :: fileLines

/-- Embedding of outline from code-index.ts as the list of lines it
renders: the single-file outline when the path is an indexed file,
otherwise the directory listing. -/
def outlineLines (symbols : List Symbol) (path : String) (depth : Nat) : List String :=
  let fileSymbols := mapGet (byFile symbols) path
  if 0 < fileSymbols.length then formatFileOutlineLines path fileSymbols
  else outlineDirLines symbols path depth

/-- Per-directory accumulator of the map renderer: file count, collected
exported top-level names and total symbol count. -/
structure DirStats where
  files : Nat
  exports : List String
  totalSymbols : Nat
deriving DecidableEq

/-- Lookup of a directory entry in the map accumulator. -/
def dirLookup (m : List (String × DirStats)) (k : String) : Option DirStats :=
  (m.find? (fun p => p.1 == k)).map (fun p => p.2)

/-- Create an empty stats entry for a directory when absent, at the end of
the accumulator, matching Map.set insertion order. -/
def dirEnsure (m : List (String × DirStats)) (k : String) : List (String × DirStats) :=
  if (m.find? (fun p => p.1 == k)).isSome then m else m ++ [(k, ⟨0, [], 0⟩)]

/-- Count one file into the stats entry of a directory: increment the file
count, append the exported top-level names and add the symbol count. -/
def dirBump : List (String × DirStats) → String → List Symbol → List (String × DirStats)
  | [], _, _ => []
  | (k2, st) :: rest, k, syms =>
    if k2 = k then
      (k2, { files := st.files + 1
             exports := st.exports ++ (syms.filter (fun s => s.exported && s.parent.isNone)).map (fun s => s.name)
             totalSymbols := st.totalSymbols + syms.length }) :: rest
    else (k2, st) :: dirBump rest k syms

/-- The directory path rendered for the first d segments of a split
relative path: the segments joined by the separator with a trailing slash. -/
def dirPathOf (parts : List String) (d : Nat) : String := joinSep (parts.take d) ++ "/"

/-- Process one file in the directory-statistics loop of map: visit every
ancestor directory level up to the depth bound, create its entry, and count
the file there exactly when the level is the deepest visited one or the
file itself lies within the depth bound. -/
def dirUpdate (depth : Nat) (m : List (String × DirStats)) (relFile : String) (syms : List Symbol) :
    List (String × DirStats) :=
  let parts := jsSplit relFile
  let k := parts.length - 1
  (List.range' 1 (min k depth)).foldl (fun m2 d =>
    let dirPath := dirPathOf parts d
    let m3 := dirEnsure m2 dirPath
    if d = min k depth ∨ k < depth then dirBump m3 dirPath syms else m3) m

/-- The normalized scan prefix of map: empty when no path is given,
otherwise the path with a trailing slash ensured. -/
def normDirPrefix (path : Option String) : String :=
  match path with
  | some p => if jsEndsWith p "/" then p else p ++ "/"
  | none => ""

/-- Whether the map loop keeps a file: no prefix given, or the file path
starts with the prefix. -/
def mapKeep (pfx file : String) : Bool := pfx == "" || jsStartsWith file pfx

/-- The path of a file relative to the scan prefix used by map. -/
def mapRel (pfx file : String) : String :=
  if pfx ≠ "" then jsDropLeft file pfx.length else file

/-- Embedding of the directory-statistics construction of map from
code-index.ts: fold the per-file buckets through dirUpdate, skipping files
outside the scan prefix. -/
def mapDirStats (symbols : List Symbol) (path : Option String) (depth : Nat) :
    List (String × DirStats) :=
  let pfx := normDirPrefix path
  (byFile symbols).foldl (fun m e =>
    if mapKeep pfx e.1 then dirUpdate depth m (mapRel pfx e.1) e.2 else m) []

/-- The lexicographically sorted directory list rendered by map. -/
def mapSortedDirs (symbols : List Symbol) (path : Option String) (depth : Nat) : List String :=
  sortNames ((mapDirStats symbols path depth).map (fun p => p.1))

/-- The count of files sitting directly at the scanned root, rendered as
the trailing line of map. -/
def mapRootFiles (symbols : List Symbol) (path : Option String) : Nat :=
  let pfx := normDirPrefix path
  ((byFile symbols).filter (fun e => mapKeep pfx e.1 && ! jsIncludes (mapRel pfx e.1) "/")).length

/-- The observable outcomes of the git commands consumed by indexer.ts:
none embeds a failing command, some its trimmed-ready output. -/
structure GitEnv where
  revParseHead : Option String
  statusPorcelain : Option String
  lsFiles : Option (List String)
deriving DecidableEq

/-- A repository content hash; the sha256 digest over the two hash updates
of computeRepoHash is embedded as the pair of the two update strings
(digest collisions are not modelled). -/
abbrev RepoHash := String × String

/-- Embedding of the JavaScript trim operation: whitespace stripped from
both ends of the character sequence. -/
def jsTrim (s : String) : String :=
  String.mk (((s.toList.dropWhile Char.isWhitespace).reverse.dropWhile Char.isWhitespace).reverse)

/-- Embedding of computeRepoHash from indexer.ts: hash the trimmed HEAD
commit, or the fallback text when git rev-parse fails, together with the
porcelain status, or its fallback text when git status fails.  Both
failures are caught internally, so the function is total. -/
def computeRepoHash (env : GitEnv) : RepoHash :=
  (match env.revParseHead with
    | some head => jsTrim head
    | none => "no-head",
   match env.statusPorcelain with
    | some status => status
    | none => "no-status")

/-- The cache format version of indexer.ts. -/
def CACHE_VERSION : Nat := 1

/-- The versioned cache record of indexer.ts. -/
structure CacheData where
  version : Nat
  hash : RepoHash
  symbols : List Symbol
  languages : List (String × Nat)
deriving DecidableEq

/-- Embedding of loadCache from indexer.ts over the stored blob (none when
the cache file is absent or unreadable): reject a stored record whose
version or hash differs from the freshly computed one. -/
def loadCache (store : Option CacheData) (hash : RepoHash) : Option CacheData :=
  match store with
  | none => none
  | some data => if data.version = CACHE_VERSION ∧ data.hash = hash then some data else none

/-- Embedding of saveCache from indexer.ts: the blob written to the cache
file (writing is best-effort in the source; the blob content is modelled). -/
def saveCache (hash : RepoHash) (symbols : List Symbol) (languages : List (String × Nat)) : CacheData :=
  { version := CACHE_VERSION, hash := hash, symbols := symbols, languages := languages }

/-- Increment the per-language file tally, inserting a new language at the
end, matching Map.set insertion order. -/
def bumpCount : List (String × Nat) → String → List (String × Nat)
  | [], k => [(k, 1)]
  | (k2, n) :: rest, k =>
    if k2 = k then (k2, n + 1) :: rest else (k2, n) :: bumpCount rest k

/-- The per-language file counts accumulated by buildIndex over the
discovered files, skipping files of unconfigured extensions. -/
def countLangs (langOf : String → Option String) (files : List String) : List (String × Nat) :=
  files.foldl (fun m f =>
    match langOf f with
    | some lang => bumpCount m lang
    | none => m) []

/-- The grouping of discovered files by language built by buildIndex, in
insertion order, skipping files of unconfigured extensions. -/
def groupFiles (langOf : String → Option String) (files : List String) : List (String × List String) :=
  files.foldl (fun m f =>
    match langOf f with
    | some lang => mapInsert m lang f
    | none => m) []

/-- The full build environment of buildIndex: the git command outcomes, the
stored cache blob when present and readable, the extension-to-language
configuration, and the per-file extraction outcome.  Parsing, reading and
extracting one file, including the skip-on-failure and oversized-file
rules, is abstracted into extractFile, which yields that file's symbol
sequence (empty when the file is skipped). -/
structure BuildEnv where
  git : GitEnv
  cacheStore : Option CacheData
  langOf : String → Option String
  extractFile : String → List Symbol

/-- The symbol stream produced by the fresh-build path of buildIndex: files
grouped by language, each group's files extracted in order. -/
def buildSymbols (env : BuildEnv) (files : List String) : List Symbol :=
  (groupFiles env.langOf files).flatMap (fun g => g.2.flatMap env.extractFile)

/-- Embedding of buildIndex from indexer.ts: compute the repository hash
(total, with internal fallbacks), return the cached index on a version and
hash match unless caching is disabled, otherwise discover files via git
ls-files — failing the whole build when that command fails — and build the
index from the freshly extracted symbol stream. -/
def buildIndex (env : BuildEnv) (noCache : Bool) : Except String CodeIndex :=
  let hash := computeRepoHash env.git
  let cached := if noCache then none else loadCache env.cacheStore hash
  match cached with
  | some data => Except.ok (createCodeIndex data.symbols data.languages)
  | none =>
    match env.git.lsFiles with
    | none => Except.error "Not a git repository. code_index requires a git repo for file discovery."
    | some files =>
      Except.ok (createCodeIndex (buildSymbols env files) (countLangs env.langOf files))

/-- A syntax-tree node as consumed by the extractors: the node kind, the
named flag, the source text of its span, its zero-indexed start row, and
its children, each optionally tagged with a field name. -/
inductive TSNode where
  | mk (type : String) (named : Bool) (text : String) (row : Nat)
      (children : List (Option String × TSNode)) : TSNode

/-- The kind of a node. -/
def TSNode.type : TSNode → String
  | .mk t _ _ _ _ => t

/-- Whether a node is a named node. -/
def TSNode.named : TSNode → Bool
  | .mk _ n _ _ _ => n

/-- The source text of a node. -/
def TSNode.text : TSNode → String
  | .mk _ _ x _ _ => x

/-- The zero-indexed start row of a node. -/
def TSNode.row : TSNode → Nat
  | .mk _ _ _ r _ => r

/-- The children of a node with their optional field tags. -/
def TSNode.children : TSNode → List (Option String × TSNode)
  | .mk _ _ _ _ cs => cs

/-- Embedding of childForFieldName: the first child carrying the field name. -/
def childForFieldName (n : TSNode) (f : String) : Option TSNode :=
  (n.children.find? (fun c => c.1 == some f)).map (fun c => c.2)

/-- Embedding of the fieldText helper from extractors/base.ts. -/
def fieldText (n : TSNode) (f : String) : Option String :=
  (childForFieldName n f).map TSNode.text

/-- The named children of a node, as exposed by namedChildren. -/
def namedChildren (n : TSNode) : List TSNode :=
  (n.children.filter (fun c => c.2.named)).map (fun c => c.2)

/-- The 120-character truncation rule applied to rendered signatures: a
longer signature is cut to its first 117 characters plus an ellipsis
marker, a shorter one is kept unchanged. -/
def truncate120 (sig : String) : String :=
  if 120 < sig.length then jsSlice sig 117 ++ "..." else sig

/-- The signature text rendered by extractSignature before truncation: the
parameters span, extended with the return type span when present; no
parameters child yields no signature. -/
def renderedSignature (n : TSNode) : Option String :=
  match childForFieldName n "parameters" with
  | none => none
  | some params =>
    match childForFieldName n "return_type" with
    | none => some params.text
    | some returnType => some (params.text ++ ": " ++ returnType.text)

/-- Embedding of the extractSignature helper from extractors/base.ts: the
rendered signature put through the 120-character truncation rule. -/
def extractSignature (n : TSNode) : Option String :=
  (renderedSignature n).map truncate120

/-- Embedding of the isExported helper from extractors/base.ts: some
ancestor is an export construct.  The ancestor chain of the current node,
nearest first, stands in for the parent pointers of the source nodes. -/
def isExported (ancestors : List TSNode) : Bool :=
  ancestors.any (fun a => a.type == "export_statement" || a.type == "export_declaration")

/-- The ancestor kinds treated as enclosing classes by the TypeScript
extractor. -/
def CLASS_PARENT_TYPES : List String := ["class_declaration", "class", "abstract_class_declaration"]

/-- Embedding of the findParentName helper from extractors/base.ts: the
name field text of the nearest ancestor of a matching kind, or nothing
when there is none or it has no name field. -/
def findParentName (ancestors : List TSNode) (parentTypes : List String) : Option String :=
  match ancestors.find? (fun a => parentTypes.contains a.type) with
  | none => none
  | some a => fieldText a "name"

/-- The per-node handler dispatch of the TypeScript extractor from
extractors/typescript.ts: the symbols contributed by one visited node given
its ancestor chain. -/
def tsHandle (file : String) (ancestors : List TSNode) (n : TSNode) : List Symbol :=
  if n.type == "function_declaration" then
    match fieldText n "name" with
    | none => []
    | some name =>
      [{ name := name, kind := .function, file := file, line := n.row + 1
         signature := extractSignature n, exported := isExported ancestors }]
  else if n.type == "lexical_declaration" then
    (namedChildren n).flatMap (fun child =>
      if child.type ≠ "variable_declarator" then []
      else match fieldText child "name" with
        | none => []
        | some name =>
          match childForFieldName child "value" with
          | none => []
          | some value =>
            let isFunc := value.type == "arrow_function" || value.type == "function_expression" ||
              value.type == "function"
            [{ name := name, kind := if isFunc then .function else .«variable»
               file := file, line := n.row + 1
               signature := if isFunc then extractSignature value else none
               exported := isExported ancestors }])
  else if n.type == "class_declaration" || n.type == "abstract_class_declaration" then
    match fieldText n "name" with
    | none => []
    | some name =>
      [{ name := name, kind := .«class», file := file, line := n.row + 1
         exported := isExported ancestors }]
  else if n.type == "method_definition" then
    match fieldText n "name" with
    | none => []
    | some name =>
      [{ name := name, kind := .method, file := file, line := n.row + 1
         signature := extractSignature n, parent := findParentName ancestors CLASS_PARENT_TYPES
         exported := false }]
  else if n.type == "interface_declaration" then
    match fieldText n "name" with
    | none => []
    | some name =>
      [{ name := name, kind := .interface, file := file, line := n.row + 1
         exported := isExported ancestors }]
  else if n.type == "type_alias_declaration" then
    match fieldText n "name" with
    | none => []
    | some name =>
      [{ name := name, kind := .type, file := file, line := n.row + 1
         exported := isExported ancestors }]
  else if n.type == "enum_declaration" then
    match fieldText n "name" with
    | none => []
    | some name =>
      [{ name := name, kind := .enum, file := file, line := n.row + 1
         exported := isExported ancestors }]
  else []

mutual

/-- Embedding of the walkTree traversal from extractors/base.ts with the
TypeScript handler table: visit a node, then its subtrees left to right,
in depth-first pre-order, carrying the ancestor chain nearest first. -/
def walkNode (file : String) (ancestors : List TSNode) : TSNode → List Symbol
  | .mk t named text row cs =>
    tsHandle file ancestors (.mk t named text row cs) ++
      walkChildren file (.mk t named text row cs :: ancestors) cs

/-- Traversal of a child list, left to right. -/
def walkChildren (file : String) (ancestors : List TSNode) :
    List (Option String × TSNode) → List Symbol
  | [] => []
  | c :: rest => walkNode file ancestors c.2 ++ walkChildren file ancestors rest

end

/-- Embedding of typescriptExtractor.extract from extractors/typescript.ts
(shared by the typescript, tsx and javascript languages): walk the tree
from the root, whose ancestor chain is empty. -/
def typescriptExtract (tree : TSNode) (file : String) : List Symbol :=
  walkNode file [] tree

/-- Whether the map loop counts a file into the stats entry of a directory
at one particular ancestor level: the level renders that directory and is
either the deepest visited level or the file lies within the depth bound. -/
def levelCounted (parts : List String) (k depth : Nat) (dir : String) (d : Nat) : Bool :=
  dirPathOf parts d == dir && (d == min k depth || decide (k < depth))

/-- Whether the map loop counts a file into the stats entry of a directory
at some ancestor level. -/
def attributedAt (depth : Nat) (dir relFile : String) : Bool :=
  let parts := jsSplit relFile
  let k := parts.length - 1
  (List.range' 1 (min k depth)).any (levelCounted parts k depth dir)

/-- The file count held in the stats entry of a directory, zero when the
directory has no entry. -/
def filesAt (m : List (String × DirStats)) (dir : String) : Nat :=
  match dirLookup m dir with
  | some st => st.files
  | none => 0

/-- Concrete symbol named create, used by the concrete search scenarios. -/
def symCreate : Symbol :=
  { name := "create", kind := .function, file := "a.ts", line := 1, exported := false }

/-- Concrete symbol named createDocument, used by the concrete search scenarios. -/
def symCreateDoc : Symbol :=
  { name := "createDocument", kind := .function, file := "a.ts", line := 2, exported := true }

/-- Concrete symbol named other_createX, used by the concrete search scenarios. -/
def symOther : Symbol :=
  { name := "other_createX", kind := .function, file := "b.ts", line := 3, exported := true }

/-- Concrete nested symbol whose parent name matches no top-level symbol of
its file. -/
def symOrphan : Symbol :=
  { name := "m", kind := .method, file := "f.ts", line := 2, parent := some "C", exported := false }

/-- Concrete top-level class symbol for the outline scenario. -/
def symTopC : Symbol :=
  { name := "C", kind := .«class», file := "g.ts", line := 1, exported := true }

/-- Concrete nested method symbol whose parent name matches symTopC. -/
def symChildM : Symbol :=
  { name := "m", kind := .method, file := "g.ts", line := 2, parent := some "C", exported := false }

/-- Concrete symbol in a file directly inside directory a. -/
def symAX : Symbol :=
  { name := "x", kind := .function, file := "a/x.ts", line := 1, exported := true }

/-- Concrete symbol in a file one level deeper, inside directory a/b. -/
def symABY : Symbol :=
  { name := "y", kind := .function, file := "a/b/y.ts", line := 1, exported := true }

/-- A git environment in which every git command fails. -/
def noGit : GitEnv := { revParseHead := none, statusPorcelain := none, lsFiles := none }

/-- A cache blob carrying the degenerate hash that computeRepoHash yields
when every git command fails. -/
def craftedCache : CacheData :=
  { version := 1, hash := ("no-head", "no-status"), symbols := [symCreate]
    languages := [("typescript", 1)] }

/-- A build environment with no working git but a stored cache blob keyed
by the degenerate no-git hash. -/
def envNoGit : BuildEnv :=
  { git := noGit, cacheStore := some craftedCache, langOf := fun _ => none
    extractFile := fun _ => [] }

/-- A build environment whose stored cache blob is keyed by the current
repository hash. -/
def envRoundTrip : BuildEnv :=
  { git := { revParseHead := some "h", statusPorcelain := some "s", lsFiles := some [] }
    cacheStore := some (saveCache ("h", "s") [symCreateDoc] [("typescript", 1)])
    langOf := fun _ => none, extractFile := fun _ => [] }

/-- Concrete method node of the extractor scenario. -/
def tsMethodNode : TSNode :=
  .mk "method_definition" true "m() \x7b\x7d" 1
    [(some "name", .mk "property_identifier" true "m" 1 [])]

/-- Concrete class node enclosing tsMethodNode. -/
def tsClassNode : TSNode :=
  .mk "class_declaration" true "class C" 0
    [(some "name", .mk "type_identifier" true "C" 0 []),
     (none, .mk "class_body" true "" 0 [(none, tsMethodNode)])]

/-- Concrete program node rooting tsClassNode. -/
def tsProgNode : TSNode := .mk "program" true "" 0 [(none, tsClassNode)]

/-- The method symbol extracted from tsProgNode. -/
def symTsMethod : Symbol :=
  { name := "m", kind := .method, file := "a.ts", line := 2, parent := some "C"
    exported := false }

/-- A 130-character parameters span, longer than the truncation bound. -/
def longRaw : String := String.mk (List.replicate 130 'a')

/-- Concrete function node whose rendered signature exceeds 120 characters. -/
def longSigNode : TSNode :=
  .mk "function_declaration" true "" 0
    [(some "parameters", .mk "formal_parameters" true longRaw 0 [])]

/-- Concrete function node whose rendered signature is short. -/
def shortSigNode : TSNode :=
  .mk "function_declaration" true "" 0
    [(some "parameters", .mk "formal_parameters" true "(x)" 0 [])]

/-- Lookup in a one-step-extended map: the head entry answers for its own
key, later entries are reached otherwise. -/
theorem mapGet_cons {α : Type} (a : String) (vs : List α) (rest : List (String × List α)) (k : String) :
    mapGet ((a, vs) :: rest) k = if a = k then vs else mapGet rest k := by
  by_cases h : a = k <;> simp [mapGet, List.find?_cons, h]

/-- Inserting a value touches exactly the bucket of its key, appending the
value at the end of that bucket. -/
theorem mapGet_insert {α : Type} (m : List (String × List α)) (k : String) (v : α) (k2 : String) :
    mapGet (mapInsert m k v) k2 = if k2 = k then mapGet m k2 ++ [v] else mapGet m k2 := by
  induction m with
  | nil =>
    by_cases h : k2 = k
    · subst h
      simp [mapInsert, mapGet_cons, mapGet]
    · have h2 : ¬ k = k2 := fun h3 => h h3.symm
      simp [mapInsert, mapGet_cons, mapGet, h, h2]
  | cons e rest ih =>
    obtain ⟨a, vs⟩ := e
    by_cases ha : a = k
    · subst ha
      simp only [mapInsert, if_pos rfl]
      by_cases h2 : a = k2
      · subst h2
        simp [mapGet_cons]
      · have h3 : ¬ k2 = a := fun h4 => h2 h4.symm
        simp [mapGet_cons, h2, h3]
    · simp only [mapInsert, if_neg ha, mapGet_cons, ih]
      by_cases h2 : a = k2
      · subst h2
        have h4 : ¬ k = a := fun h5 => ha h5.symm
        simp [mapGet_cons, ha, h4]
      · simp [mapGet_cons, h2]

/-- Folding a symbol stream into a keyed map extends every bucket by the
stream's symbols carrying that key, in stream order. -/
theorem foldl_mapInsert_get (key : Symbol → String) (l : List Symbol)
    (m : List (String × List Symbol)) (k : String) :
    mapGet (l.foldl (fun m2 s => mapInsert m2 (key s) s) m) k =
      mapGet m k ++ l.filter (fun s => key s == k) := by
  induction l generalizing m with
  | nil => simp
  | cons s rest ih =>
    simp only [List.foldl_cons, List.filter_cons, ih, mapGet_insert]
    by_cases h : k = key s
    · simp [h, beq_iff_eq]
    · have h2 : (key s == k) = false := by
        simp [beq_iff_eq]; exact fun h3 => h (h3.symm)
      simp [h, h2]

/-- The exact-name buckets of the index are the name-filtered symbol stream. -/
theorem byName_get (symbols : List Symbol) (k : String) :
    mapGet (byName symbols) k = symbols.filter (fun s => s.name == k) := by
  unfold byName buildMap
  rw [foldl_mapInsert_get]
  rfl

/-- The case-folded buckets of the index are the folded-name-filtered
symbol stream. -/
theorem byNameLower_get (symbols : List Symbol) (k : String) :
    mapGet (byNameLower symbols) k = symbols.filter (fun s => jsToLower s.name == k) := by
  unfold byNameLower buildMap
  rw [foldl_mapInsert_get]
  rfl

/-- The per-file buckets of the index are the file-filtered symbol stream. -/
theorem byFile_get (symbols : List Symbol) (k : String) :
    mapGet (byFile symbols) k = symbols.filter (fun s => s.file == k) := by
  unfold byFile buildMap
  rw [foldl_mapInsert_get]
  rfl

/-- Extending the accumulator with a different head commutes with the
insertion-ordered addition of an element. -/
theorem addIfAbsent_cons (acc : List String) (a x : String) (h : x ≠ a) :
    addIfAbsent (a :: acc) x = a :: addIfAbsent acc x := by
  unfold addIfAbsent
  by_cases hm : x ∈ acc
  · simp [hm, List.mem_cons]
  · have h2 : ¬ x ∈ a :: acc := by simp [List.mem_cons, h, hm]
    simp [hm, h2]

/-- Inserting a value adds its key at the end of the key list when new and
leaves the key list unchanged otherwise. -/
theorem mapKeys_insert {α : Type} (m : List (String × List α)) (k : String) (v : α) :
    mapKeys (mapInsert m k v) = addIfAbsent (mapKeys m) k := by
  induction m with
  | nil => simp [mapInsert, mapKeys, addIfAbsent]
  | cons e rest ih =>
    obtain ⟨a, vs⟩ := e
    by_cases ha : a = k
    · subst ha
      simp [mapInsert, mapKeys, addIfAbsent]
    · have hk : k ≠ a := fun h => ha h.symm
      have h1 : mapKeys ((a, vs) :: rest) = a :: mapKeys rest := rfl
      have h2 : mapKeys ((a, vs) :: mapInsert rest k v) = a :: mapKeys (mapInsert rest k v) := rfl
      simp only [mapInsert, if_neg ha, h1, h2, addIfAbsent_cons _ _ _ hk, ih]

/-- Folding a symbol stream into a keyed map accumulates the distinct keys
in first-occurrence order. -/
theorem foldl_mapInsert_keys (key : Symbol → String) (l : List Symbol)
    (m : List (String × List Symbol)) :
    mapKeys (l.foldl (fun m2 s => mapInsert m2 (key s) s) m) =
      (l.map key).foldl addIfAbsent (mapKeys m) := by
  induction l generalizing m with
  | nil => simp
  | cons s rest ih => simp only [List.foldl_cons, List.map_cons, ih, mapKeys_insert]

/-- Membership in the insertion-ordered distinct-element accumulator. -/
theorem mem_addIfAbsent (acc : List String) (x y : String) :
    y ∈ addIfAbsent acc x ↔ y ∈ acc ∨ y = x := by
  unfold addIfAbsent
  by_cases h : x ∈ acc
  · simp only [h, if_true]
    constructor
    · exact Or.inl
    · rintro (h2 | h2)
      · exact h2
      · exact h2 ▸ h
  · simp [h]

/-- Membership in a fold of the distinct-element accumulator. -/
theorem mem_foldl_addIfAbsent (l : List String) (acc : List String) (x : String) :
    x ∈ l.foldl addIfAbsent acc ↔ x ∈ acc ∨ x ∈ l := by
  induction l generalizing acc with
  | nil => simp
  | cons y rest ih =>
    simp only [List.foldl_cons, ih, mem_addIfAbsent, List.mem_cons]
    tauto

/-- Membership in the distinct first occurrences of a list. -/
theorem mem_dedupFirst (l : List String) (x : String) : x ∈ dedupFirst l ↔ x ∈ l := by
  unfold dedupFirst
  rw [mem_foldl_addIfAbsent]
  simp

/-- A fold of the distinct-element accumulator preserves the absence of
duplicates. -/
theorem nodup_foldl_addIfAbsent (l : List String) (acc : List String) (h : acc.Nodup) :
    (l.foldl addIfAbsent acc).Nodup := by
  induction l generalizing acc with
  | nil => exact h
  | cons y rest ih =>
    refine ih _ ?_
    unfold addIfAbsent
    by_cases hy : y ∈ acc
    · simpa [hy] using h
    · simp [List.nodup_append, h, hy]

/-- The distinct first occurrences of a list have no duplicates. -/
theorem nodup_dedupFirst (l : List String) : (dedupFirst l).Nodup :=
  nodup_foldl_addIfAbsent l [] List.nodup_nil

/-- The number of distinct first occurrences is the number of distinct
elements. -/
theorem dedupFirst_length (l : List String) : (dedupFirst l).length = l.toFinset.card := by
  have h1 : (dedupFirst l).toFinset = l.toFinset := by
    ext x
    simp [List.mem_toFinset, mem_dedupFirst]
  rw [← List.toFinset_card_of_nodup (nodup_dedupFirst l), h1]

/-- The file count of the index is the number of distinct file paths
carried by at least one symbol. -/
theorem fileCount_eq (symbols : List Symbol) :
    fileCount symbols = (symbols.map (fun s => s.file)).toFinset.card := by
  unfold fileCount
  have h1 : (byFile symbols).length = (mapKeys (byFile symbols)).length := by
    simp [mapKeys]
  rw [h1]
  unfold byFile buildMap
  rw [foldl_mapInsert_keys]
  have h2 : mapKeys ([] : List (String × List Symbol)) = [] := rfl
  rw [h2]
  exact dedupFirst_length _

/-- C3: for every build, the symbol count of the constructed index is the
total number of symbols in the concatenation of the per-file extractor
outputs, and the file count is the number of distinct file paths carried by
at least one symbol record, so files contributing no symbols are not
counted. -/
theorem claim3_index_counts (outputs : List (List Symbol)) (langs : List (String × Nat)) :
    (createCodeIndex outputs.flatten langs).symbolCount = (outputs.map List.length).sum ∧
    (createCodeIndex outputs.flatten langs).fileCount =
      (outputs.flatten.map (fun s => s.file)).toFinset.card := by
  constructor
  · simp [createCodeIndex, List.length_flatten]
  · exact fileCount_eq _

/-- Characters with equal numeric values are equal. -/
theorem charToNat_inj {a b : Char} (h : a.toNat = b.toNat) : a = b :=
  Char.eq_of_val_eq (UInt32.ext h)

/-- The strict character-sequence comparison is asymmetric. -/
theorem strLtChars_asymm (x : List Char) :
    ∀ y, strLtChars x y = true → strLtChars y x = false := by
  induction x with
  | nil =>
    intro y h
    cases y with
    | nil => simp [strLtChars] at h
    | cons b bs => simp [strLtChars]
  | cons a as ih =>
    intro y h
    cases y with
    | nil => simp [strLtChars] at h
    | cons b bs =>
      simp only [strLtChars] at h ⊢
      by_cases h1 : a.toNat < b.toNat
      · have h2 : ¬ b.toNat < a.toNat := Nat.lt_asymm h1
        simp [h1, h2]
      · by_cases h2 : b.toNat < a.toNat
        · simp [h1, h2] at h
        · simp only [h1, h2, if_false] at h
          simp [h1, h2, ih bs h]

/-- The strict character-sequence comparison is transitive. -/
theorem strLtChars_trans (x : List Char) :
    ∀ y z, strLtChars x y = true → strLtChars y z = true → strLtChars x z = true := by
  induction x with
  | nil =>
    intro y z hxy hyz
    cases z with
    | nil =>
      cases y with
      | nil => exact hxy
      | cons b bs => simp [strLtChars] at hyz
    | cons c cs => simp [strLtChars]
  | cons a as ih =>
    intro y z hxy hyz
    cases y with
    | nil => simp [strLtChars] at hxy
    | cons b bs =>
      cases z with
      | nil => simp [strLtChars] at hyz
      | cons c cs =>
        simp only [strLtChars] at hxy hyz ⊢
        by_cases hab : a.toNat < b.toNat
        · by_cases hbc : b.toNat < c.toNat
          · simp [Nat.lt_trans hab hbc]
          · by_cases hcb : c.toNat < b.toNat
            · simp [hbc, hcb] at hyz
            · have hbc2 : b.toNat = c.toNat := Nat.le_antisymm (Nat.le_of_not_lt hcb) (Nat.le_of_not_lt hbc)
              simp [hbc2 ▸ hab]
        · by_cases hba : b.toNat < a.toNat
          · simp [hab, hba] at hxy
          · have hab2 : a.toNat = b.toNat := Nat.le_antisymm (Nat.le_of_not_lt hba) (Nat.le_of_not_lt hab)
            simp only [hab, hba, if_false] at hxy
            by_cases hbc : b.toNat < c.toNat
            · simp [hab2 ▸ hbc]
            · by_cases hcb : c.toNat < b.toNat
              · simp [hbc, hcb] at hyz
              · simp only [hbc, hcb, if_false] at hyz
                have hac : ¬ a.toNat < c.toNat := hab2 ▸ hbc
                have hca : ¬ c.toNat < a.toNat := hab2 ▸ hcb
                simp [hac, hca, ih bs cs hxy hyz]

/-- Character sequences unrelated by the strict comparison in either
direction are equal. -/
theorem strLtChars_connex (x : List Char) :
    ∀ y, strLtChars x y = false → strLtChars y x = false → x = y := by
  induction x with
  | nil =>
    intro y h1 _
    cases y with
    | nil => rfl
    | cons b bs => simp [strLtChars] at h1
  | cons a as ih =>
    intro y h1 h2
    cases y with
    | nil => simp [strLtChars] at h2
    | cons b bs =>
      simp only [strLtChars] at h1 h2
      by_cases hab : a.toNat < b.toNat
      · simp [hab] at h1
      · by_cases hba : b.toNat < a.toNat
        · simp [hab, hba] at h1
          simp [hba] at h2
        · have hab2 : a = b := charToNat_inj (Nat.le_antisymm (Nat.le_of_not_lt hba) (Nat.le_of_not_lt hab))
          simp only [hab, hba, if_false] at h1 h2
          rw [hab2, ih bs h1 h2]

/-- The string comparison used for sorting is total. -/
theorem jsLe_total (a b : String) : jsLe a b = true ∨ jsLe b a = true := by
  unfold jsLe
  by_cases h : strLtChars b.toList a.toList = true
  · right
    rw [strLtChars_asymm _ _ h]
    rfl
  · left
    rw [Bool.not_eq_true] at h
    rw [h]
    rfl

/-- The string comparison used for sorting is transitive. -/
theorem jsLe_trans (a b c : String) (h1 : jsLe a b = true) (h2 : jsLe b c = true) :
    jsLe a c = true := by
  unfold jsLe at *
  simp only [Bool.not_eq_true', Bool.not_eq_eq_eq_not] at *
  by_cases hca : strLtChars c.toList a.toList = true
  · exfalso
    by_cases hbc : strLtChars b.toList c.toList = true
    · have hba : strLtChars b.toList a.toList = true := strLtChars_trans _ _ _ hbc hca
      rw [hba] at h1
      exact Bool.false_ne_true h1.symm
    · have hb : b.toList = c.toList := by
        apply strLtChars_connex
        · simpa using hbc
        · simpa using h2
      rw [← hb] at hca
      rw [hca] at h1
      exact Bool.false_ne_true h1.symm
  · simpa using hca

/-- Every element of an ordered insertion is the inserted element or an
element of the original list. -/
theorem mem_insertSorted (x a : String) (l : List String) :
    a ∈ insertSorted x l ↔ a = x ∨ a ∈ l := by
  induction l with
  | nil => simp [insertSorted]
  | cons y ys ih =>
    show a ∈ (if jsLe x y = true then x :: y :: ys else y :: insertSorted x ys) ↔ _
    by_cases h : jsLe x y = true
    · rw [if_pos h]
      simp [List.mem_cons]
    · rw [if_neg h]
      simp only [List.mem_cons, ih]
      tauto

/-- Every element of the sorted name list is an element of the input. -/
theorem mem_sortNames (l : List String) (a : String) : a ∈ sortNames l ↔ a ∈ l := by
  induction l with
  | nil => simp [sortNames]
  | cons y ys ih =>
    unfold sortNames at *
    simp only [List.foldr_cons, mem_insertSorted, ih, List.mem_cons]

/-- Ordered insertion preserves sortedness. -/
theorem pairwise_insertSorted (x : String) :
    ∀ l : List String, l.Pairwise (fun a b => jsLe a b = true) →
      (insertSorted x l).Pairwise (fun a b => jsLe a b = true) := by
  intro l
  induction l with
  | nil =>
    intro _
    simp [insertSorted]
  | cons y ys ih =>
    intro h
    show List.Pairwise _ (if jsLe x y = true then x :: y :: ys else y :: insertSorted x ys)
    by_cases hxy : jsLe x y = true
    · rw [if_pos hxy]
      refine List.pairwise_cons.mpr ⟨?_, h⟩
      intro b hb
      rcases List.mem_cons.mp hb with hb | hb
      · exact hb ▸ hxy
      · exact jsLe_trans _ _ _ hxy ((List.pairwise_cons.mp h).1 b hb)
    · have hyx : jsLe y x = true := (jsLe_total x y).resolve_left hxy
      rw [if_neg hxy]
      refine List.pairwise_cons.mpr ⟨?_, ih (List.Pairwise.of_cons h)⟩
      intro b hb
      rcases (mem_insertSorted x b ys).mp hb with hb | hb
      · exact hb ▸ hyx
      · exact (List.pairwise_cons.mp h).1 b hb

/-- The sorted name list is sorted by the string comparison. -/
theorem pairwise_sortNames (l : List String) :
    (sortNames l).Pairwise (fun a b => jsLe a b = true) := by
  induction l with
  | nil => simp [sortNames]
  | cons y ys ih => exact pairwise_insertSorted y _ ih

/-- The one-step unfolding of the bounded collection loop. -/
theorem collectBound_cons (pred : String → Bool) (lookup : String → List Symbol) (bound : Nat)
    (n : String) (rest : List String) (acc : List Symbol) :
    collectBound pred lookup bound (n :: rest) acc =
      if bound < (if pred n = true then acc ++ lookup n else acc).length
      then (if pred n = true then acc ++ lookup n else acc)
      else collectBound pred lookup bound rest (if pred n = true then acc ++ lookup n else acc) := rfl

/-- The bounded collection loop only extends its accumulator. -/
theorem collectBound_append (pred : String → Bool) (lookup : String → List Symbol) (bound : Nat) :
    ∀ (l : List String) (acc : List Symbol),
      ∃ t, collectBound pred lookup bound l acc = acc ++ t := by
  intro l
  induction l with
  | nil =>
    intro acc
    exact ⟨[], by simp [collectBound]⟩
  | cons n rest ih =>
    intro acc
    rw [collectBound_cons]
    by_cases hp : pred n = true
    · simp only [if_pos hp]
      by_cases hb : bound < (acc ++ lookup n).length
      · rw [if_pos hb]
        exact ⟨lookup n, rfl⟩
      · rw [if_neg hb]
        obtain ⟨t, ht⟩ := ih (acc ++ lookup n)
        exact ⟨lookup n ++ t, by rw [ht, List.append_assoc]⟩
    · simp only [if_neg hp]
      by_cases hb : bound < acc.length
      · rw [if_pos hb]
        exact ⟨[], by simp⟩
      · rw [if_neg hb]
        exact ih acc

/-- Every collected symbol comes from the accumulator or from the bucket of
a scanned name passing the predicate. -/
theorem mem_collectBound (pred : String → Bool) (lookup : String → List Symbol) (bound : Nat) :
    ∀ (l : List String) (acc : List Symbol) (s : Symbol),
      s ∈ collectBound pred lookup bound l acc →
        s ∈ acc ∨ ∃ n ∈ l, pred n = true ∧ s ∈ lookup n := by
  intro l
  induction l with
  | nil =>
    intro acc s hs
    simp only [collectBound] at hs
    exact Or.inl hs
  | cons n rest ih =>
    intro acc s hs
    rw [collectBound_cons] at hs
    by_cases hp : pred n = true
    · simp only [if_pos hp] at hs
      by_cases hb : bound < (acc ++ lookup n).length
      · rw [if_pos hb] at hs
        rcases List.mem_append.mp hs with h | h
        · exact Or.inl h
        · exact Or.inr ⟨n, List.mem_cons_self n rest, hp, h⟩
      · rw [if_neg hb] at hs
        rcases ih _ s hs with h | ⟨n2, hn2, hp2, hs2⟩
        · rcases List.mem_append.mp h with h | h
          · exact Or.inl h
          · exact Or.inr ⟨n, List.mem_cons_self n rest, hp, h⟩
        · exact Or.inr ⟨n2, List.mem_cons_of_mem n hn2, hp2, hs2⟩
    · simp only [if_neg hp] at hs
      by_cases hb : bound < acc.length
      · rw [if_pos hb] at hs
        exact Or.inl hs
      · rw [if_neg hb] at hs
        rcases ih _ s hs with h | ⟨n2, hn2, hp2, hs2⟩
        · exact Or.inl h
        · exact Or.inr ⟨n2, List.mem_cons_of_mem n hn2, hp2, hs2⟩

/-- A collection starting from a non-empty matched head bucket is non-empty. -/
theorem collectBound_ne_nil (pred : String → Bool) (lookup : String → List Symbol) (bound : Nat)
    (n : String) (rest : List String) (hp : pred n = true) (hne : lookup n ≠ []) :
    collectBound pred lookup bound (n :: rest) [] ≠ [] := by
  rw [collectBound_cons]
  simp only [if_pos hp, List.nil_append]
  by_cases hb : bound < (lookup n).length
  · rw [if_pos hb]
    exact hne
  · rw [if_neg hb]
    obtain ⟨t, ht⟩ := collectBound_append pred lookup bound rest (lookup n)
    rw [ht]
    intro h
    exact hne (List.append_eq_nil.mp h).1

/-- Every filtered result is one of the raw results. -/
theorem applyFilters_subset (results : List Symbol) (options : SearchOptions) :
    ∀ s ∈ applyFilters results options, s ∈ results := by
  intro s hs
  unfold applyFilters at hs
  replace hs := List.mem_of_mem_take hs
  rcases options with ⟨ko, so, eo, lo⟩
  cases ko <;> cases so <;> cases eo <;>
    simp only at hs <;>
    repeat first
      | exact hs
      | replace hs := List.mem_of_mem_filter hs

/-- The filtered results never exceed the limit. -/
theorem applyFilters_length (results : List Symbol) (options : SearchOptions) :
    (applyFilters results options).length ≤ options.limit.getD 20 := by
  unfold applyFilters
  exact List.length_take_le _ _

/-- With no kind, scope or exported filter, filtering is truncation to the
limit. -/
theorem applyFilters_none (results : List Symbol) (options : SearchOptions)
    (hk : options.kind = none) (hs : options.scope = none) (he : options.exported = none) :
    applyFilters results options = results.take (options.limit.getD 20) := by
  unfold applyFilters
  rw [hk, hs, he]

/-- Every result surviving an exported filter carries the filtered value. -/
theorem applyFilters_exported (results : List Symbol) (options : SearchOptions) (e : Bool)
    (he : options.exported = some e) :
    ∀ s ∈ applyFilters results options, s.exported = e := by
  intro s hs
  unfold applyFilters at hs
  rw [he] at hs
  replace hs := List.mem_of_mem_take hs
  have h2 := (List.mem_filter.mp hs).2
  simpa using h2

/-- The substring tier respects the result limit. -/
theorem substringTier_length (symbols : List Symbol) (lower : String) (opts : SearchOptions)
    (limit : Nat) : (substringTier symbols lower opts limit).length ≤ opts.limit.getD 20 :=
  applyFilters_length _ _

/-- The prefix tier respects the result limit. -/
theorem prefixTier_length (symbols : List Symbol) (lower : String) (opts : SearchOptions)
    (limit : Nat) : (prefixTier symbols lower opts limit).length ≤ opts.limit.getD 20 := by
  simp only [prefixTier]
  by_cases h1 : 0 <
      (collectBound (fun name => jsStartsWith (jsToLower name) lower) (mapGet (byName symbols))
        (limit * 3) (sortedNames symbols) []).length
  · rw [if_pos h1]
    by_cases h2 : 0 <
        (applyFilters
          (collectBound (fun name => jsStartsWith (jsToLower name) lower) (mapGet (byName symbols))
            (limit * 3) (sortedNames symbols) []) opts).length
    · rw [if_pos h2]
      exact applyFilters_length _ _
    · rw [if_neg h2]
      exact substringTier_length _ _ _ _
  · rw [if_neg h1]
    exact substringTier_length _ _ _ _

/-- The case-insensitive tier respects the result limit. -/
theorem ciTier_length (symbols : List Symbol) (lower : String) (opts : SearchOptions)
    (limit : Nat) : (ciTier symbols lower opts limit).length ≤ opts.limit.getD 20 := by
  simp only [ciTier]
  by_cases h1 : 0 < (mapGet (byNameLower symbols) lower).length
  · rw [if_pos h1]
    by_cases h2 : 0 < (applyFilters (mapGet (byNameLower symbols) lower) opts).length
    · rw [if_pos h2]
      exact applyFilters_length _ _
    · rw [if_neg h2]
      exact prefixTier_length _ _ _ _
  · rw [if_neg h1]
    exact prefixTier_length _ _ _ _

/-- Search respects the result limit. -/
theorem search_length_le (symbols : List Symbol) (query : String) (options : SearchOptions) :
    (search symbols query options).length ≤ options.limit.getD 20 := by
  simp only [search]
  by_cases h1 : 0 < (mapGet (byName symbols) query).length
  · rw [if_pos h1]
    by_cases h2 : 0 <
        (applyFilters (mapGet (byName symbols) query)
          { options with limit := some (options.limit.getD 20) }).length
    · rw [if_pos h2]
      exact applyFilters_length _ _
    · rw [if_neg h2]
      exact ciTier_length _ _ _ _
  · rw [if_neg h1]
    exact ciTier_length _ _ _ _

/-- C2: whenever the raw matches of a tier all fail the filters, the
cascade falls through to the next tier rather than returning the empty
post-filter result: an empty filtered exact tier hands over to the
case-insensitive tier, an empty filtered case-insensitive tier to the
prefix tier, and an empty filtered prefix tier to the substring tier; in
particular, with an exact-name match failing an exported filter and a
prefix match passing it, search returns the prefix-tier result instead of
an empty result. -/
theorem claim2_filter_fallthrough :
    (∀ (symbols : List Symbol) (query : String) (options : SearchOptions),
      applyFilters (mapGet (byName symbols) query)
          { options with limit := some (options.limit.getD 20) } = [] →
        search symbols query options =
          ciTier symbols (jsToLower query) { options with limit := some (options.limit.getD 20) }
            (options.limit.getD 20)) ∧
    (∀ (symbols : List Symbol) (lower : String) (opts : SearchOptions) (limit : Nat),
      applyFilters (mapGet (byNameLower symbols) lower) opts = [] →
        ciTier symbols lower opts limit = prefixTier symbols lower opts limit) ∧
    (∀ (symbols : List Symbol) (lower : String) (opts : SearchOptions) (limit : Nat),
      applyFilters
          (collectBound (fun name => jsStartsWith (jsToLower name) lower) (mapGet (byName symbols))
            (limit * 3) (sortedNames symbols) []) opts = [] →
        prefixTier symbols lower opts limit = substringTier symbols lower opts limit) ∧
    search [symCreate, symCreateDoc] "create" { exported := some true } = [symCreateDoc] := by
  refine ⟨?_, ?_, ?_, by decide⟩
  · intro symbols query options h
    simp only [search]
    by_cases h1 : 0 < (mapGet (byName symbols) query).length
    · rw [if_pos h1, h]
      simp
    · rw [if_neg h1]
  · intro symbols lower opts limit h
    simp only [ciTier]
    by_cases h1 : 0 < (mapGet (byNameLower symbols) lower).length
    · rw [if_pos h1, h]
      simp
    · rw [if_neg h1]
  · intro symbols lower opts limit h
    simp only [prefixTier]
    by_cases h1 : 0 <
        (collectBound (fun name => jsStartsWith (jsToLower name) lower) (mapGet (byName symbols))
          (limit * 3) (sortedNames symbols) []).length
    · rw [if_pos h1, h]
      simp
    · rw [if_neg h1]

/-- Witness for C2 at the concrete two-symbol scenario: the exact tier
fails the exported filter, so search agrees with the cascade from the
case-insensitive tier on. -/
theorem claim2_filter_fallthrough_witness :
    search [symCreate, symCreateDoc] "create" { exported := some true } =
      ciTier [symCreate, symCreateDoc] (jsToLower "create")
        { kind := none, scope := none, exported := some true, limit := some 20 } 20 :=
  claim2_filter_fallthrough.1 [symCreate, symCreateDoc] "create" { exported := some true }
    (by decide)

/-- A truncation to a positive limit of a non-empty list is non-empty. -/
theorem take_ne_nil {α : Type} (limit : Nat) (l : List α) (hlim : 1 ≤ limit) (hl : l ≠ []) :
    l.take limit ≠ [] := by
  obtain ⟨a, t, rfl⟩ := List.exists_cons_of_ne_nil hl
  obtain ⟨m, rfl⟩ : ∃ m, limit = m + 1 := ⟨limit - 1, by omega⟩
  simp

/-- Every string starts with the empty string. -/
theorem jsStartsWith_empty (s : String) : jsStartsWith s "" = true := by
  show List.isPrefixOf [] s.toList = true
  generalize s.toList = l
  cases l <;> rfl

/-- The sorted name list of a non-empty symbol stream is non-empty. -/
theorem sortedNames_ne_nil (symbols : List Symbol) (hne : symbols ≠ []) :
    sortedNames symbols ≠ [] := by
  obtain ⟨s0, rest, rfl⟩ := List.exists_cons_of_ne_nil hne
  apply List.ne_nil_of_mem (a := s0.name)
  unfold sortedNames
  rw [mem_sortNames, mem_dedupFirst]
  exact List.mem_map.mpr ⟨s0, List.mem_cons_self _ _, rfl⟩

/-- The exact-name bucket of a name appearing in the sorted name list is
non-empty. -/
theorem byName_bucket_ne_nil (symbols : List Symbol) (n : String)
    (hn : n ∈ sortedNames symbols) : mapGet (byName symbols) n ≠ [] := by
  have hn1 : n ∈ symbols.map (fun s => s.name) := by
    unfold sortedNames at hn
    exact (mem_dedupFirst _ _).mp ((mem_sortNames _ _).mp hn)
  obtain ⟨s0, hs0, hname⟩ := List.mem_map.mp hn1
  rw [byName_get]
  apply List.ne_nil_of_mem (a := s0)
  rw [List.mem_filter]
  exact ⟨hs0, by simp [hname]⟩

/-- On a non-empty index with no filters and a positive limit, the prefix
tier of the empty query is non-empty: every name matches the empty prefix. -/
theorem prefixTier_empty_query_ne_nil (symbols : List Symbol) (opts : SearchOptions) (limit : Nat)
    (hk : opts.kind = none) (hsc : opts.scope = none) (he : opts.exported = none)
    (hl : opts.limit = some limit) (hne : symbols ≠ []) (hlim : 1 ≤ limit) :
    prefixTier symbols (jsToLower "") opts limit ≠ [] := by
  simp only [prefixTier]
  set c := collectBound (fun name => jsStartsWith (jsToLower name) (jsToLower ""))
    (mapGet (byName symbols)) (limit * 3) (sortedNames symbols) [] with hc
  have hcol : c ≠ [] := by
    obtain ⟨n0, rest, heq⟩ := List.exists_cons_of_ne_nil (sortedNames_ne_nil symbols hne)
    rw [hc, heq]
    apply collectBound_ne_nil
    · show jsStartsWith (jsToLower n0) (jsToLower "") = true
      rw [show jsToLower "" = "" from rfl]
      exact jsStartsWith_empty _
    · exact byName_bucket_ne_nil symbols n0 (heq ▸ List.mem_cons_self n0 rest)
  rw [if_pos (List.length_pos.mpr hcol)]
  have hfil : applyFilters c opts = c.take limit := by
    rw [applyFilters_none _ _ hk hsc he, hl, Option.getD_some]
  have hfne : applyFilters c opts ≠ [] := by
    rw [hfil]
    exact take_ne_nil limit c hlim hcol
  rw [if_pos (List.length_pos.mpr hfne)]
  exact hfne

/-- On a non-empty index with no filters and a positive limit, the
case-insensitive tier of the empty query is non-empty. -/
theorem ciTier_empty_query_ne_nil (symbols : List Symbol) (opts : SearchOptions) (limit : Nat)
    (hk : opts.kind = none) (hsc : opts.scope = none) (he : opts.exported = none)
    (hl : opts.limit = some limit) (hne : symbols ≠ []) (hlim : 1 ≤ limit) :
    ciTier symbols (jsToLower "") opts limit ≠ [] := by
  simp only [ciTier]
  split
  · split
    next h2 => exact List.length_pos.mp h2
    next h2 => exact prefixTier_empty_query_ne_nil symbols opts limit hk hsc he hl hne hlim
  · exact prefixTier_empty_query_ne_nil symbols opts limit hk hsc he hl hne hlim

/-- C9: on every index holding at least one symbol, and for every limit of
at least one, searching for the empty string returns a non-empty result of
at most limit symbols: the empty query reaches the case-insensitive prefix
tier, where it matches every name; it is never an error, since search is a
total function. -/
theorem claim9_empty_query (symbols : List Symbol) (limit : Nat)
    (hne : symbols ≠ []) (hlim : 1 ≤ limit) :
    search symbols "" { limit := some limit } ≠ [] ∧
    (search symbols "" { limit := some limit }).length ≤ limit := by
  constructor
  · simp only [search]
    split
    · split
      next h2 => exact List.length_pos.mp h2
      next h2 => exact ciTier_empty_query_ne_nil _ _ _ rfl rfl rfl rfl hne hlim
    · exact ciTier_empty_query_ne_nil _ _ _ rfl rfl rfl rfl hne hlim
  · exact search_length_le symbols "" { limit := some limit }

/-- Witness for C9 at a concrete one-symbol index with limit one. -/
theorem claim9_empty_query_witness :
    search [symCreate] "" { limit := some 1 } ≠ [] ∧
    (search [symCreate] "" { limit := some 1 }).length ≤ 1 :=
  claim9_empty_query [symCreate] 1 (by decide) (by decide)

/-- Every method symbol contributed by the TypeScript handler table is
unexported: only the method handler yields method symbols, and it hardcodes
the exported flag to false. -/
theorem tsHandle_method (file : String) (anc : List TSNode) (n : TSNode) (s : Symbol)
    (hs : s ∈ tsHandle file anc n) (hk : s.kind = SymbolKind.method) : s.exported = false := by
  unfold tsHandle at hs
  split_ifs at hs with h1 h2 h3 h4 h5 h6 h7
  · cases hname : fieldText n "name" <;> rw [hname] at hs
    · simp at hs
    · rw [List.mem_singleton] at hs
      subst hs
      exact absurd hk (by simp)
  · rcases List.mem_flatMap.mp hs with ⟨child, hchild, hs2⟩
    split_ifs at hs2 with hvd
    · simp at hs2
    · cases hname : fieldText child "name" <;> rw [hname] at hs2
      · simp at hs2
      · cases hval : childForFieldName child "value" <;> rw [hval] at hs2
        · simp at hs2
        · rw [List.mem_singleton] at hs2
          subst hs2
          simp only at hk
          split_ifs at hk
  · cases hname : fieldText n "name" <;> rw [hname] at hs
    · simp at hs
    · rw [List.mem_singleton] at hs
      subst hs
      exact absurd hk (by simp)
  · cases hname : fieldText n "name" <;> rw [hname] at hs
    · simp at hs
    · rw [List.mem_singleton] at hs
      subst hs
      rfl
  · cases hname : fieldText n "name" <;> rw [hname] at hs
    · simp at hs
    · rw [List.mem_singleton] at hs
      subst hs
      exact absurd hk (by simp)
  · cases hname : fieldText n "name" <;> rw [hname] at hs
    · simp at hs
    · rw [List.mem_singleton] at hs
      subst hs
      exact absurd hk (by simp)
  · cases hname : fieldText n "name" <;> rw [hname] at hs
    · simp at hs
    · rw [List.mem_singleton] at hs
      subst hs
      exact absurd hk (by simp)
  · simp at hs

/-- Membership in the traversal of a child list is membership in the
traversal of one of the children. -/
theorem mem_walkChildren (file : String) (anc : List TSNode) :
    ∀ (cs : List (Option String × TSNode)) (s : Symbol),
      s ∈ walkChildren file anc cs ↔ ∃ c ∈ cs, s ∈ walkNode file anc c.2 := by
  intro cs
  induction cs with
  | nil =>
    intro s
    simp [walkChildren]
  | cons c rest ih =>
    intro s
    simp only [walkChildren, List.mem_append, ih, List.mem_cons]
    constructor
    · rintro (h | ⟨c2, hc2, h2⟩)
      · exact ⟨c, Or.inl rfl, h⟩
      · exact ⟨c2, Or.inr hc2, h2⟩
    · rintro ⟨c2, hc2 | hc2, h2⟩
      · exact Or.inl (hc2 ▸ h2)
      · exact Or.inr ⟨c2, hc2, h2⟩

/-- Every method symbol produced by a bounded-depth tree walk is
unexported. -/
theorem walkNode_method_aux :
    ∀ (N : Nat) (n : TSNode), sizeOf n ≤ N →
      ∀ (file : String) (anc : List TSNode) (s : Symbol),
        s ∈ walkNode file anc n → s.kind = SymbolKind.method → s.exported = false := by
  intro N
  induction N with
  | zero =>
    intro n hn
    exfalso
    cases n
    simp at hn
  | succ N ih =>
    intro n hn file anc s hs hk
    cases n with
    | mk t nd tx r cs =>
      simp only [walkNode] at hs
      rcases List.mem_append.mp hs with h | h
      · exact tsHandle_method _ _ _ _ h hk
      · rcases (mem_walkChildren _ _ cs s).mp h with ⟨c, hc, hcw⟩
        have h1 := List.sizeOf_lt_of_mem hc
        have h2 : sizeOf c.2 < sizeOf c := by
          obtain ⟨a, b⟩ := c
          simp only [Prod.mk.sizeOf_spec]
          omega
        have h3 : sizeOf c.2 ≤ N := by
          simp only [TSNode.mk.sizeOf_spec] at hn
          omega
        exact ih c.2 h3 file (TSNode.mk t nd tx r cs :: anc) s hcw hk

/-- Every method symbol produced by the TypeScript extractor is unexported. -/
theorem typescriptExtract_method_unexported (tree : TSNode) (file : String) :
    ∀ s ∈ typescriptExtract tree file, s.kind = SymbolKind.method → s.exported = false :=
  fun s hs hk => walkNode_method_aux (sizeOf tree) tree (Nat.le_refl _) file [] s hs hk

/-- Every substring-tier result is a symbol of the index. -/
theorem substringTier_subset (symbols : List Symbol) (lower : String) (opts : SearchOptions)
    (limit : Nat) : ∀ s ∈ substringTier symbols lower opts limit, s ∈ symbols := by
  intro s hs
  have h1 := applyFilters_subset _ _ s hs
  rcases mem_collectBound _ _ _ _ _ s h1 with h | ⟨n, _, _, hb⟩
  · simp at h
  · rw [byName_get] at hb
    exact List.mem_of_mem_filter hb

/-- Every prefix-tier result is a symbol of the index. -/
theorem prefixTier_subset (symbols : List Symbol) (lower : String) (opts : SearchOptions)
    (limit : Nat) : ∀ s ∈ prefixTier symbols lower opts limit, s ∈ symbols := by
  intro s hs
  simp only [prefixTier] at hs
  split at hs
  · split at hs
    · have h1 := applyFilters_subset _ _ s hs
      rcases mem_collectBound _ _ _ _ _ s h1 with h | ⟨n, _, _, hb⟩
      · simp at h
      · rw [byName_get] at hb
        exact List.mem_of_mem_filter hb
    · exact substringTier_subset _ _ _ _ s hs
  · exact substringTier_subset _ _ _ _ s hs

/-- Every case-insensitive-tier result is a symbol of the index. -/
theorem ciTier_subset (symbols : List Symbol) (lower : String) (opts : SearchOptions)
    (limit : Nat) : ∀ s ∈ ciTier symbols lower opts limit, s ∈ symbols := by
  intro s hs
  simp only [ciTier] at hs
  split at hs
  · split at hs
    · have h1 := applyFilters_subset _ _ s hs
      rw [byNameLower_get] at h1
      exact List.mem_of_mem_filter h1
    · exact prefixTier_subset _ _ _ _ s hs
  · exact prefixTier_subset _ _ _ _ s hs

/-- Every search result is a symbol of the index. -/
theorem search_subset (symbols : List Symbol) (query : String) (options : SearchOptions) :
    ∀ s ∈ search symbols query options, s ∈ symbols := by
  intro s hs
  simp only [search] at hs
  split at hs
  · split at hs
    · have h1 := applyFilters_subset _ _ s hs
      rw [byName_get] at h1
      exact List.mem_of_mem_filter h1
    · exact ciTier_subset _ _ _ _ s hs
  · exact ciTier_subset _ _ _ _ s hs

/-- Every substring-tier result carries the filtered exported value. -/
theorem substringTier_exported (symbols : List Symbol) (lower : String) (opts : SearchOptions)
    (limit : Nat) (e : Bool) (he : opts.exported = some e) :
    ∀ s ∈ substringTier symbols lower opts limit, s.exported = e :=
  fun s hs => applyFilters_exported _ _ _ he s hs

/-- Every prefix-tier result carries the filtered exported value. -/
theorem prefixTier_exported (symbols : List Symbol) (lower : String) (opts : SearchOptions)
    (limit : Nat) (e : Bool) (he : opts.exported = some e) :
    ∀ s ∈ prefixTier symbols lower opts limit, s.exported = e := by
  intro s hs
  simp only [prefixTier] at hs
  split at hs
  · split at hs
    · exact applyFilters_exported _ _ _ he s hs
    · exact substringTier_exported _ _ _ _ _ he s hs
  · exact substringTier_exported _ _ _ _ _ he s hs

/-- Every case-insensitive-tier result carries the filtered exported value. -/
theorem ciTier_exported (symbols : List Symbol) (lower : String) (opts : SearchOptions)
    (limit : Nat) (e : Bool) (he : opts.exported = some e) :
    ∀ s ∈ ciTier symbols lower opts limit, s.exported = e := by
  intro s hs
  simp only [ciTier] at hs
  split at hs
  · split at hs
    · exact applyFilters_exported _ _ _ he s hs
    · exact prefixTier_exported _ _ _ _ _ he s hs
  · exact prefixTier_exported _ _ _ _ _ he s hs

/-- Every search result carries the filtered exported value. -/
theorem search_exported (symbols : List Symbol) (query : String) (options : SearchOptions)
    (e : Bool) (he : options.exported = some e) :
    ∀ s ∈ search symbols query options, s.exported = e := by
  intro s hs
  simp only [search] at hs
  split at hs
  · split at hs
    · exact applyFilters_exported _ _ _ he s hs
    · exact ciTier_exported _ _ _ _ _ he s hs
  · exact ciTier_exported _ _ _ _ _ he s hs

/-- C10: every symbol produced by the JS-family extractor (shared by the
typescript, tsx and javascript languages) with kind method has exported
false, and consequently a search with the exported filter set to true over
an index built from that extractor never returns a method symbol. -/
theorem claim10_js_methods_unexported (tree : TSNode) (file : String) (query : String)
    (options : SearchOptions) :
    (∀ s ∈ typescriptExtract tree file, s.kind = SymbolKind.method → s.exported = false) ∧
    (options.exported = some true →
      ∀ s ∈ search (typescriptExtract tree file) query options, s.kind ≠ SymbolKind.method) := by
  refine ⟨typescriptExtract_method_unexported tree file, ?_⟩
  intro he s hs hk
  have h1 : s ∈ typescriptExtract tree file := search_subset _ _ _ s hs
  have h2 : s.exported = true := search_exported _ _ _ _ he s hs
  have h3 : s.exported = false := typescriptExtract_method_unexported tree file s h1 hk
  rw [h2] at h3
  exact Bool.noConfusion h3

/-- Witness for C10 at a concrete tree holding one class with one method:
the extracted method symbol is unexported. -/
theorem claim10_js_methods_unexported_witness : symTsMethod.exported = false :=
  (claim10_js_methods_unexported tsProgNode "a.ts" "m" { exported := some true }).1
    symTsMethod (by decide) (by decide)

/-- The file outline is the header line followed, for every top-level
symbol in stream order, by its line and the lines of the nested symbols
whose parent name matches its name. -/
theorem formatFileOutlineLines_eq (file : String) (syms : List Symbol) :
    formatFileOutlineLines file syms =
      file :: (syms.filter (fun s => s.parent.isNone)).flatMap
        (fun t => topLine t ::
          (((syms.filter (fun s => s.parent.isSome)).filter
              (fun s => s.parent.getD "" == t.name)).map childLine)) := by
  have hb : ∀ k, mapGet ((syms.filter (fun s => s.parent.isSome)).foldl
      (fun m s => mapInsert m (s.parent.getD "") s) []) k =
      (syms.filter (fun s => s.parent.isSome)).filter (fun s => s.parent.getD "" == k) := by
    intro k
    rw [foldl_mapInsert_get (fun s => s.parent.getD "")]
    rfl
  simp only [formatFileOutlineLines, hb]

/-- C5 (corrected): for a file path present in the index, outline renders
the file outline; that outline lists the top-level symbols in source order,
each followed by the nested symbols whose parent name textually matches its
name, so a nested symbol appears whenever its parent name matches some
top-level symbol of the file — but a nested symbol whose parent name
matches no top-level symbol is dropped, not rendered without linkage; in
particular a file whose symbols are all nested renders as the bare header. -/
theorem claim5_outline_rendering (symbols : List Symbol) (path : String) (depth : Nat)
    (s t : Symbol) (p : String) :
    (mapGet (byFile symbols) path ≠ [] →
      outlineLines symbols path depth = formatFileOutlineLines path (mapGet (byFile symbols) path)) ∧
    formatFileOutlineLines path symbols =
      path :: (symbols.filter (fun u => u.parent.isNone)).flatMap
        (fun u => topLine u ::
          (((symbols.filter (fun v => v.parent.isSome)).filter
              (fun v => v.parent.getD "" == u.name)).map childLine)) ∧
    (s ∈ symbols → s.parent = none → topLine s ∈ formatFileOutlineLines path symbols) ∧
    (s ∈ symbols → s.parent = some p → t ∈ symbols → t.parent = none → t.name = p →
      childLine s ∈ formatFileOutlineLines path symbols) ∧
    ((∀ u ∈ symbols, u.parent.isSome) → formatFileOutlineLines path symbols = [path]) := by
  refine ⟨?_, formatFileOutlineLines_eq path symbols, ?_, ?_, ?_⟩
  · intro h
    unfold outlineLines
    rw [if_pos (List.length_pos.mpr h)]
  · intro hs hp
    rw [formatFileOutlineLines_eq]
    apply List.mem_cons_of_mem
    apply List.mem_flatMap.mpr
    refine ⟨s, List.mem_filter.mpr ⟨hs, by simp [hp]⟩, List.mem_cons_self _ _⟩
  · intro hs hp ht htp htn
    rw [formatFileOutlineLines_eq]
    apply List.mem_cons_of_mem
    apply List.mem_flatMap.mpr
    refine ⟨t, List.mem_filter.mpr ⟨ht, by simp [htp]⟩, ?_⟩
    apply List.mem_cons_of_mem
    apply List.mem_map.mpr
    refine ⟨s, List.mem_filter.mpr ⟨List.mem_filter.mpr ⟨hs, by simp [hp]⟩, ?_⟩, rfl⟩
    simp [hp, htn]
  · intro hall
    rw [formatFileOutlineLines_eq]
    have h0 : symbols.filter (fun u => u.parent.isNone) = [] := by
      rw [List.filter_eq_nil_iff]
      intro u hu
      have h := hall u hu
      cases hp : u.parent
      · rw [hp] at h
        simp at h
      · simp [hp]
    rw [h0]
    rfl

/-- Counterexample for C5 as stated: a file whose only symbol carries a
dangling parent name renders as the bare header line, the nested symbol is
dropped from the outline entirely. -/
theorem claim5_outline_counterexample :
    mapGet (byFile [symOrphan]) "f.ts" = [symOrphan] ∧
    outlineLines [symOrphan] "f.ts" 1 = ["f.ts"] ∧
    childLine symOrphan ∉ outlineLines [symOrphan] "f.ts" 1 ∧
    (∀ line ∈ outlineLines [symOrphan] "f.ts" 1, jsIncludes line "m" = false) := by decide

/-- Witness for C5 at a concrete file with one class and one matched
method: the method line is rendered. -/
theorem claim5_outline_rendering_witness :
    childLine symChildM ∈ formatFileOutlineLines "g.ts" [symTopC, symChildM] :=
  (claim5_outline_rendering [symTopC, symChildM] "g.ts" 1 symChildM symTopC "C").2.2.2.1
    (by decide) (by decide) (by decide) (by decide) (by decide)

/-- C6: saving a cache blob and loading it with the same hash and cache
version yields exactly the saved symbol stream, so rebuilding from an
unchanged repository state returns the index built from the cached stream;
a load with a differing version or hash yields no cache hit. -/
theorem claim6_cache_roundtrip (hash h2 : RepoHash) (symbols : List Symbol)
    (languages : List (String × Nat)) (data : CacheData) (env : BuildEnv) :
    loadCache (some (saveCache hash symbols languages)) hash =
      some (saveCache hash symbols languages) ∧
    (saveCache hash symbols languages).symbols = symbols ∧
    (h2 ≠ hash → loadCache (some (saveCache hash symbols languages)) h2 = none) ∧
    (data.version ≠ CACHE_VERSION → loadCache (some data) hash = none) ∧
    (data.hash ≠ hash → loadCache (some data) hash = none) ∧
    (env.cacheStore = some (saveCache (computeRepoHash env.git) symbols languages) →
      buildIndex env false = Except.ok (createCodeIndex symbols languages)) := by
  refine ⟨?_, rfl, ?_, ?_, ?_, ?_⟩
  · simp [loadCache, saveCache]
  · intro hne
    simp [loadCache, saveCache, Ne.symm hne]
  · intro hv
    simp [loadCache, hv]
  · intro hh
    simp [loadCache, hh]
  · intro hstore
    have h1 : loadCache (some (saveCache (computeRepoHash env.git) symbols languages))
        (computeRepoHash env.git) = some (saveCache (computeRepoHash env.git) symbols languages) := by
      simp [loadCache, saveCache]
    simp only [buildIndex]
    rw [hstore]
    simp only [Bool.false_eq_true, if_false, h1]
    rfl

/-- Witness for C6: a hash mismatch misses the cache, and a build against a
store saved under the current hash returns the cached index. -/
theorem claim6_cache_roundtrip_witness :
    loadCache (some (saveCache ("h", "s") [symCreateDoc] [("typescript", 1)])) ("x", "s") = none ∧
    buildIndex envRoundTrip false = Except.ok (createCodeIndex [symCreateDoc] [("typescript", 1)]) :=
  ⟨(claim6_cache_roundtrip ("h", "s") ("x", "s") [symCreateDoc] [("typescript", 1)]
      craftedCache envRoundTrip).2.2.1 (by decide),
   (claim6_cache_roundtrip (computeRepoHash envRoundTrip.git) ("x", "s") [symCreateDoc]
      [("typescript", 1)] craftedCache envRoundTrip).2.2.2.2.2 (by decide)⟩

/-- C4 (corrected): when every git command fails, computeRepoHash degrades
to the fixed fallback hash instead of failing, so the build aborts with the
not-a-git-repository error only when the cache misses that degenerate hash
or caching is disabled; a stored cache blob carrying the degenerate hash is
returned as a successful cached index even though git is unavailable. -/
theorem claim4_build_git_unavailable (env : BuildEnv) (noCache : Bool) (data : CacheData)
    (hg : env.git = noGit) :
    ((noCache = true ∨ loadCache env.cacheStore (computeRepoHash env.git) = none) →
      buildIndex env noCache =
        Except.error "Not a git repository. code_index requires a git repo for file discovery.") ∧
    (noCache = false → loadCache env.cacheStore (computeRepoHash env.git) = some data →
      buildIndex env noCache = Except.ok (createCodeIndex data.symbols data.languages)) := by
  constructor
  · intro h
    simp only [buildIndex]
    rw [hg]
    have hcached :
        (if noCache then none else loadCache env.cacheStore (computeRepoHash noGit)) =
          (none : Option CacheData) := by
      rcases h with h | h
      · rw [h]
        rfl
      · rw [hg] at h
        cases noCache <;> simp [h]
    rw [hcached]
    rfl
  · intro hnc hsome
    simp only [buildIndex]
    rw [hnc]
    simp only [Bool.false_eq_true, if_false]
    rw [hsome]

/-- Counterexample for C4 as stated: with every git command failing and a
stored cache blob keyed by the degenerate no-git hash, buildIndex returns a
cached index instead of aborting. -/
theorem claim4_build_counterexample :
    envNoGit.git.revParseHead = none ∧ envNoGit.git.statusPorcelain = none ∧
    envNoGit.git.lsFiles = none ∧
    buildIndex envNoGit false = Except.ok (createCodeIndex [symCreate] [("typescript", 1)]) :=
  ⟨rfl, rfl, rfl, rfl⟩

/-- Witness for C4: with caching disabled and no git, the build aborts with
the user-facing error. -/
theorem claim4_build_git_unavailable_witness :
    buildIndex envNoGit true =
      Except.error "Not a git repository. code_index requires a git repo for file discovery." :=
  (claim4_build_git_unavailable envNoGit true craftedCache rfl).1 (Or.inl rfl)

/-- C7: a rendered signature longer than 120 characters is stored as its
first 117 characters followed by the three-character ellipsis marker, for a
total length of exactly 120; a rendered signature of at most 120 characters
is stored unchanged. -/
theorem claim7_signature_truncation (n : TSNode) (raw : String)
    (hr : renderedSignature n = some raw) :
    (120 < raw.length →
      extractSignature n = some (jsSlice raw 117 ++ "...") ∧
      (jsSlice raw 117 ++ "...").length = 120) ∧
    (raw.length ≤ 120 → extractSignature n = some raw) := by
  constructor
  · intro hlong
    constructor
    · unfold extractSignature
      rw [hr]
      show some (truncate120 raw) = _
      unfold truncate120
      rw [if_pos hlong]
    · have h1 : (jsSlice raw 117).length = 117 := by
        show (raw.toList.take 117).length = 117
        rw [List.length_take]
        have h2 : raw.toList.length = raw.length := rfl
        omega
      rw [String.length_append, h1]
      rfl
  · intro hshort
    unfold extractSignature
    rw [hr]
    show some (truncate120 raw) = _
    unfold truncate120
    rw [if_neg (by omega)]

set_option maxRecDepth 8000 in
/-- Witness for C7 at a 130-character rendered signature and a short one. -/
theorem claim7_signature_truncation_witness :
    (extractSignature longSigNode = some (jsSlice longRaw 117 ++ "...") ∧
      (jsSlice longRaw 117 ++ "...").length = 120) ∧
    extractSignature shortSigNode = some "(x)" :=
  ⟨(claim7_signature_truncation longSigNode longRaw (by decide)).1 (by decide),
   (claim7_signature_truncation shortSigNode "(x)" (by decide)).2 (by decide)⟩

/-- Directory lookup in a one-step-extended accumulator. -/
theorem dirLookup_cons (a : String) (st : DirStats) (rest : List (String × DirStats)) (k : String) :
    dirLookup ((a, st) :: rest) k = if a = k then some st else dirLookup rest k := by
  by_cases h : a = k <;> simp [dirLookup, List.find?_cons, h]

/-- Appending a fresh zero entry does not change any file count. -/
theorem filesAt_append_zero (m : List (String × DirStats)) (k : String) (dir : String) :
    filesAt (m ++ [(k, ⟨0, [], 0⟩)]) dir = filesAt m dir := by
  unfold filesAt
  induction m with
  | nil =>
    by_cases hk : k = dir <;> simp [dirLookup_cons, hk, dirLookup]
  | cons e rest ih =>
    obtain ⟨a, st⟩ := e
    by_cases ha : a = dir <;> simp [dirLookup_cons, ha, ih]

/-- Ensuring an entry does not change any file count. -/
theorem filesAt_dirEnsure (m : List (String × DirStats)) (k : String) (dir : String) :
    filesAt (dirEnsure m k) dir = filesAt m dir := by
  unfold dirEnsure
  by_cases h : (m.find? (fun p => p.1 == k)).isSome
  · rw [if_pos h]
  · rw [if_neg h]
    exact filesAt_append_zero m k dir

/-- After ensuring an entry, the entry is present. -/
theorem dirEnsure_isSome (m : List (String × DirStats)) (k : String) :
    (dirLookup (dirEnsure m k) k).isSome := by
  unfold dirEnsure
  by_cases h : (m.find? (fun p => p.1 == k)).isSome
  · rw [if_pos h]
    unfold dirLookup
    simpa using h
  · rw [if_neg h]
    rw [Option.not_isSome_iff_eq_none] at h
    induction m with
    | nil => simp [dirLookup, List.find?_cons]
    | cons e rest ih =>
      obtain ⟨a, st⟩ := e
      rw [List.find?_cons] at h
      by_cases hak : (a == k) = true
      · simp [hak] at h
      · have hak2 : (a == k) = false := by simpa using hak
        simp only [hak2] at h
        have hne : ¬ a = k := by simpa using hak
        rw [List.cons_append, dirLookup_cons, if_neg hne]
        exact ih h

/-- Counting a file into one directory leaves other file counts unchanged. -/
theorem filesAt_dirBump_other (m : List (String × DirStats)) (k : String) (syms : List Symbol)
    (dir : String) (hne : dir ≠ k) :
    filesAt (dirBump m k syms) dir = filesAt m dir := by
  induction m with
  | nil => rfl
  | cons e rest ih =>
    obtain ⟨a, st⟩ := e
    unfold dirBump
    by_cases hak : a = k
    · rw [if_pos hak]
      unfold filesAt
      rw [dirLookup_cons, dirLookup_cons, if_neg (hak ▸ fun h => hne (h ▸ hak ▸ rfl))]
      · rw [if_neg (fun h : a = dir => hne (h ▸ hak.symm ▸ rfl))]
    · rw [if_neg hak]
      unfold filesAt at *
      rw [dirLookup_cons, dirLookup_cons]
      by_cases ha : a = dir
      · rw [if_pos ha, if_pos ha]
      · rw [if_neg ha, if_neg ha]
        exact ih

/-- Counting a file into a present directory entry increments its file
count by one. -/
theorem filesAt_dirBump_self (m : List (String × DirStats)) (k : String) (syms : List Symbol)
    (h : (dirLookup m k).isSome) :
    filesAt (dirBump m k syms) k = filesAt m k + 1 := by
  induction m with
  | nil => simp [dirLookup] at h
  | cons e rest ih =>
    obtain ⟨a, st⟩ := e
    unfold dirBump
    by_cases hak : a = k
    · rw [if_pos hak]
      unfold filesAt
      rw [dirLookup_cons, dirLookup_cons, if_pos hak, if_pos hak]
    · rw [if_neg hak]
      unfold filesAt at *
      rw [dirLookup_cons, dirLookup_cons, if_neg hak, if_neg hak]
      rw [dirLookup_cons, if_neg hak] at h
      exact ih h

/-- The effect of one level of the directory-statistics loop on one file
count. -/
theorem filesAt_dirLevel (depth : Nat) (parts : List String) (k : Nat) (syms : List Symbol)
    (m : List (String × DirStats)) (d : Nat) (dir : String) :
    filesAt (if d = min k depth ∨ k < depth
             then dirBump (dirEnsure m (dirPathOf parts d)) (dirPathOf parts d) syms
             else dirEnsure m (dirPathOf parts d)) dir =
      filesAt m dir +
        (if dirPathOf parts d = dir ∧ (d = min k depth ∨ k < depth) then 1 else 0) := by
  by_cases hcond : d = min k depth ∨ k < depth
  · rw [if_pos hcond]
    by_cases hdir : dirPathOf parts d = dir
    · rw [if_pos ⟨hdir, hcond⟩, hdir]
      rw [filesAt_dirBump_self _ _ _ (hdir ▸ dirEnsure_isSome m (dirPathOf parts d)),
        filesAt_dirEnsure]
    · rw [if_neg (fun h => hdir h.1)]
      rw [filesAt_dirBump_other _ _ _ _ (fun h => hdir h.symm), filesAt_dirEnsure]
      simp
  · rw [if_neg hcond, if_neg (fun h => hcond h.2), filesAt_dirEnsure]
    simp

/-- The directory-level fold counts one file into every level whose
rendered directory is the given one and whose condition holds. -/
theorem filesAt_foldLevels (depth : Nat) (parts : List String) (k : Nat) (syms : List Symbol)
    (dir : String) :
    ∀ (ds : List Nat) (m : List (String × DirStats)),
      filesAt (ds.foldl (fun m2 d =>
          if d = min k depth ∨ k < depth
          then dirBump (dirEnsure m2 (dirPathOf parts d)) (dirPathOf parts d) syms
          else dirEnsure m2 (dirPathOf parts d)) m) dir =
        filesAt m dir + ds.countP (levelCounted parts k depth dir) := by
  intro ds
  induction ds with
  | nil =>
    intro m
    simp
  | cons d rest ih =>
    intro m
    rw [List.foldl_cons, ih, filesAt_dirLevel, List.countP_cons]
    have hl : (levelCounted parts k depth dir d = true) ↔
        (dirPathOf parts d = dir ∧ (d = min k depth ∨ k < depth)) := by
      simp [levelCounted]
    by_cases hc : dirPathOf parts d = dir ∧ (d = min k depth ∨ k < depth)
    · rw [if_pos hc, if_pos (hl.mpr hc)]
      omega
    · rw [if_neg hc, if_neg (fun h => hc (hl.mp h))]
      omega

/-- Joining a list extended at the end appends a separator and the last
segment. -/
theorem joinSep_append_last (xs : List String) (y : String) (h : xs ≠ []) :
    joinSep (xs ++ [y]) = joinSep xs ++ "/" ++ y := by
  induction xs with
  | nil => exact absurd rfl h
  | cons x rest ih =>
    cases rest with
    | nil => rfl
    | cons x2 rest2 =>
      show joinSep (x :: ((x2 :: rest2) ++ [y])) = _
      have h2 : (x2 :: rest2) ++ [y] = x2 :: (rest2 ++ [y]) := rfl
      rw [h2]
      have h3 : joinSep (x :: x2 :: (rest2 ++ [y])) = x ++ "/" ++ joinSep (x2 :: (rest2 ++ [y])) := by
        cases rest2 <;> rfl
      rw [h3, ← h2, ih (by simp)]
      have h4 : joinSep (x :: x2 :: rest2) = x ++ "/" ++ joinSep (x2 :: rest2) := by
        cases rest2 <;> rfl
      rw [h4]
      apply String.ext
      simp [String.data_append]

/-- The rendered directory path strictly grows in length from one level to
the next within the split. -/
theorem dirPathOf_length_lt (parts : List String) (d : Nat) (hd : 1 ≤ d)
    (hlt : d < parts.length) :
    (dirPathOf parts d).length < (dirPathOf parts (d + 1)).length := by
  unfold dirPathOf
  have htake : parts.take (d + 1) = parts.take d ++ [parts[d]] := by
    rw [List.take_succ, List.getElem?_eq_getElem hlt]
    rfl
  have hne : parts.take d ≠ [] := by
    have hp : parts ≠ [] := by
      intro h
      rw [h] at hlt
      simp at hlt
    obtain ⟨p0, prest, rfl⟩ := List.exists_cons_of_ne_nil hp
    obtain ⟨e, rfl⟩ : ∃ e, d = e + 1 := ⟨d - 1, by omega⟩
    simp
  rw [htake, joinSep_append_last _ _ hne]
  have hslash : ("/" : String).length = 1 := rfl
  rw [String.length_append, String.length_append, String.length_append, String.length_append,
    hslash]
  omega

/-- The rendered directory path strictly grows in length across levels
within the split. -/
theorem dirPathOf_length_lt_of_lt (parts : List String) (d1 : Nat) (h1 : 1 ≤ d1) :
    ∀ d2, d1 < d2 → d2 ≤ parts.length →
      (dirPathOf parts d1).length < (dirPathOf parts d2).length := by
  intro d2
  induction d2 with
  | zero =>
    intro h12 _
    omega
  | succ e ih =>
    intro h12 h2
    rcases Nat.lt_succ_iff_lt_or_eq.mp h12 with h | h
    · exact Nat.lt_trans (ih h (by omega)) (dirPathOf_length_lt parts e (by omega) (by omega))
    · subst h
      exact dirPathOf_length_lt parts d1 h1 (by omega)

/-- Distinct levels within the split render distinct directory paths. -/
theorem dirPathOf_inj (parts : List String) (d1 d2 : Nat) (h1 : 1 ≤ d1) (h2 : 1 ≤ d2)
    (hl1 : d1 ≤ parts.length) (hl2 : d2 ≤ parts.length)
    (heq : dirPathOf parts d1 = dirPathOf parts d2) : d1 = d2 := by
  by_contra hne
  rcases Nat.lt_or_ge d1 d2 with h | h
  · have := dirPathOf_length_lt_of_lt parts d1 h1 d2 h hl2
    rw [heq] at this
    omega
  · have h3 : d2 < d1 := by omega
    have := dirPathOf_length_lt_of_lt parts d2 h2 d1 h3 hl1
    rw [heq] at this
    omega

/-- On a duplicate-free list where at most one element satisfies the
predicate, the count is one exactly when some element satisfies it. -/
theorem countP_eq_ite_any (p : Nat → Bool) :
    ∀ (ds : List Nat), ds.Nodup →
      (∀ d1 ∈ ds, ∀ d2 ∈ ds, p d1 = true → p d2 = true → d1 = d2) →
      ds.countP p = if ds.any p then 1 else 0 := by
  intro ds
  induction ds with
  | nil =>
    intro _ _
    simp
  | cons d rest ih =>
    intro hnd huniq
    rw [List.countP_cons, List.any_cons]
    by_cases hp : p d = true
    · have hrest : rest.countP p = 0 := by
        rw [List.countP_eq_zero]
        intro e he hpe
        have heq : e = d :=
          huniq e (List.mem_cons_of_mem d he) d (List.mem_cons_self d rest) hpe hp
        exact absurd (heq ▸ he) (List.nodup_cons.mp hnd).1
      rw [hrest, hp]
      simp
    · have hp2 : p d = false := by simpa using hp
      rw [ih (List.nodup_cons.mp hnd).2
        (fun e1 he1 e2 he2 => huniq e1 (List.mem_cons_of_mem d he1) e2 (List.mem_cons_of_mem d he2)),
        hp2]
      simp

/-- The per-file effect of the directory-statistics loop: a file counts
once into a directory exactly when it is attributed to it. -/
theorem filesAt_dirUpdate (depth : Nat) (m : List (String × DirStats)) (relFile : String)
    (syms : List Symbol) (dir : String) :
    filesAt (dirUpdate depth m relFile syms) dir =
      filesAt m dir + (if attributedAt depth dir relFile then 1 else 0) := by
  show filesAt ((List.range' 1 (min ((jsSplit relFile).length - 1) depth)).foldl (fun m2 d =>
      if d = min ((jsSplit relFile).length - 1) depth ∨ (jsSplit relFile).length - 1 < depth
      then dirBump (dirEnsure m2 (dirPathOf (jsSplit relFile) d)) (dirPathOf (jsSplit relFile) d) syms
      else dirEnsure m2 (dirPathOf (jsSplit relFile) d)) m) dir = _
  rw [filesAt_foldLevels]
  congr 1
  have hcnt := countP_eq_ite_any (levelCounted (jsSplit relFile) ((jsSplit relFile).length - 1) depth dir)
    (List.range' 1 (min ((jsSplit relFile).length - 1) depth)) (List.nodup_range' _ _) ?_
  · rw [hcnt]
    rfl
  · intro d1 hd1 d2 hd2 hp1 hp2
    have hm1 := List.mem_range'_1.mp hd1
    have hm2 := List.mem_range'_1.mp hd2
    have he1 : dirPathOf (jsSplit relFile) d1 = dir := by
      have := (by simpa [levelCounted] using hp1 :
        dirPathOf (jsSplit relFile) d1 = dir ∧ _)
      exact this.1
    have he2 : dirPathOf (jsSplit relFile) d2 = dir := by
      have := (by simpa [levelCounted] using hp2 :
        dirPathOf (jsSplit relFile) d2 = dir ∧ _)
      exact this.1
    apply dirPathOf_inj (jsSplit relFile) d1 d2 (by omega) (by omega) (by omega) (by omega)
    rw [he1, he2]

/-- The directory-statistics map counts, for every directory, exactly the
kept files attributed to it. -/
theorem filesAt_mapDirStats (symbols : List Symbol) (path : Option String) (depth : Nat)
    (dir : String) :
    filesAt (mapDirStats symbols path depth) dir =
      (byFile symbols).countP (fun e =>
        mapKeep (normDirPrefix path) e.1 &&
          attributedAt depth dir (mapRel (normDirPrefix path) e.1)) := by
  unfold mapDirStats
  have haux : ∀ (es : List (String × List Symbol)) (m : List (String × DirStats)),
      filesAt (es.foldl (fun m2 e =>
          if mapKeep (normDirPrefix path) e.1
          then dirUpdate depth m2 (mapRel (normDirPrefix path) e.1) e.2 else m2) m) dir =
        filesAt m dir + es.countP (fun e =>
          mapKeep (normDirPrefix path) e.1 &&
            attributedAt depth dir (mapRel (normDirPrefix path) e.1)) := by
    intro es
    induction es with
    | nil =>
      intro m
      simp
    | cons e rest ih =>
      intro m
      rw [List.foldl_cons, ih, List.countP_cons]
      by_cases hkeep : mapKeep (normDirPrefix path) e.1 = true
      · rw [if_pos hkeep, filesAt_dirUpdate]
        by_cases hattr : attributedAt depth dir (mapRel (normDirPrefix path) e.1) = true
        · rw [if_pos hattr]
          rw [if_pos (by rw [hkeep, hattr]; rfl)]
          omega
        · have hattr2 : attributedAt depth dir (mapRel (normDirPrefix path) e.1) = false := by
            simpa using hattr
          rw [if_neg hattr]
          rw [if_neg (by rw [hattr2]; simp)]
          omega
      · have hkeep2 : mapKeep (normDirPrefix path) e.1 = false := by simpa using hkeep
        rw [if_neg hkeep]
        rw [if_neg (by rw [hkeep2]; simp)]
        omega
  rw [haux]
  have h0 : filesAt [] dir = 0 := rfl
  rw [h0, Nat.zero_add]

/-- C8 (corrected): a directory line of the map does not aggregate its
whole subtree; its count equals the number of kept files attributed to it
by the level rule — a file within the depth bound counts toward every
ancestor directory, a deeper file counts only toward its ancestor at the
depth bound — and the rendered directory lines are sorted lexicographically
by path. -/
theorem claim8_map_directory_counts (symbols : List Symbol) (path : Option String) (depth : Nat)
    (dir : String) (st : DirStats) :
    (dirLookup (mapDirStats symbols path depth) dir = some st →
      st.files = (byFile symbols).countP (fun e =>
        mapKeep (normDirPrefix path) e.1 &&
          attributedAt depth dir (mapRel (normDirPrefix path) e.1))) ∧
    List.Pairwise (fun a b => jsLe a b = true) (mapSortedDirs symbols path depth) := by
  constructor
  · intro hlk
    have h1 : filesAt (mapDirStats symbols path depth) dir = st.files := by
      unfold filesAt
      rw [hlk]
    rw [← h1, filesAt_mapDirStats]
  · unfold mapSortedDirs
    exact pairwise_sortNames _

/-- Counterexample for C8 as stated: with files a/x.ts and a/b/y.ts and the
default depth bound of two, the directory line for a holds a file count of
one while its subtree holds two indexed files. -/
theorem claim8_map_counterexample :
    (dirLookup (mapDirStats [symAX, symABY] none 2) "a/").map (fun st => st.files) = some 1 ∧
    ((byFile [symAX, symABY]).filter (fun e => jsStartsWith e.1 "a/")).length = 2 := by decide

/-- Witness for C8 at the concrete two-file index: the entry of a/b/ counts
exactly the files attributed to it. -/
theorem claim8_map_directory_counts_witness :
    (⟨1, ["y"], 1⟩ : DirStats).files =
      (byFile [symAX, symABY]).countP (fun e =>
        mapKeep (normDirPrefix none) e.1 && attributedAt 2 "a/b/" (mapRel (normDirPrefix none) e.1)) :=
  (claim8_map_directory_counts [symAX, symABY] none 2 "a/b/" ⟨1, ["y"], 1⟩).1 (by decide)

/-- C1: on an index holding exactly the symbols named create,
createDocument and other_createX, an unfiltered search for create returns
only the exact match, a search for createD returns the prefix-tier match
createDocument, and a search for reateX falls through the exact and prefix
tiers to the substring-tier match other_createX. -/
theorem claim1_search_tier_order :
    search [symCreate, symCreateDoc, symOther] "create" {} = [symCreate] ∧
    search [symCreate, symCreateDoc, symOther] "createD" {} = [symCreateDoc] ∧
    search [symCreate, symCreateDoc, symOther] "reateX" {} = [symOther] :=
  ⟨by decide, by decide, by decide⟩

end PiCodeIndex
